import Mathlib

/-!
# LinEd: a shallow embedding of `lined.c`

The editor keeps its buffer in four globals: the slot array `lines[MAX_LINES]`
of owned C strings, the counter `line_count`, and the last-used range
`last_a`, `last_b` (plus `current_file`).  Here the globals are the fields of
`Ed`; every C function that touches them takes and returns an `Ed`.

* a C string is the list of its characters before the terminating NUL;
* a slot is `none` for a NULL pointer and `some s` for a string;
* `int` values are `Int`; `atoi` converts its value to the range of a 32-bit
  `int`, every other value that occurs is far from overflow;
* `size_t` values are `Nat`;
* a character stream (`stdin`, a file) is the list of characters not yet read;
* a buffer filled by `fgets` from `stdin` is read as the C string it holds
  (`cstr`); files are taken to hold no NUL byte;
* `malloc` succeeds;
* what is printed is modelled for `cmd_list`, `cmd_replace`, `cmd_search` and the
  cases D and S of the command loop, as a list of `Out` entries.
-/

namespace LinEd

/-! ## Constants and state -/

/-- The content of a NUL-terminated C string. -/
abbrev Line := List Char

/-- The slot array `static char *lines[MAX_LINES]`, indexed by `int`. -/
abbrev Lines := Int → Option Line

def MAX_LINES : Int := 1200

def LINE_LEN : Nat := 256

/-- The global variables of `lined.c`. -/
structure Ed where
  lines : Lines
  line_count : Int
  current_file : Line
  last_a : Int
  last_b : Int

/-- `lines[i] = v`. -/
def setSlot (L : Lines) (i : Int) (v : Option Line) : Lines :=
  fun j => if j = i then v else L j

/-- `for (i = lo; ...; ++i) s = body i s`, run for `k` iterations. -/
def forUpN {σ : Type} (body : Int → σ → σ) : Nat → Int → σ → σ
  | 0, _, s => s
  | k + 1, i, s => forUpN body k (i + 1) (body i s)

/-- `for (i = lo; i < hi; ++i) s = body i s` (the bounds are loop constants). -/
def forUp {σ : Type} (body : Int → σ → σ) (lo hi : Int) (s : σ) : σ :=
  forUpN body (hi - lo).toNat lo s

/-- `for (i = hi; ...; --i) s = body i s`, run for `k` iterations. -/
def forDownN {σ : Type} (body : Int → σ → σ) : Nat → Int → σ → σ
  | 0, _, s => s
  | k + 1, i, s => forDownN body k (i - 1) (body i s)

/-- `for (i = hi; i >= lo; --i) s = body i s` (the bounds are loop constants). -/
def forDown {σ : Type} (body : Int → σ → σ) (hi lo : Int) (s : σ) : σ :=
  forDownN body (hi - lo + 1).toNat hi s

/-- The observable buffer: slots `0 .. line_count-1`, in order. -/
def content (ed : Ed) : List (Option Line) :=
  (List.range ed.line_count.toNat).map (fun (k : Nat) => ed.lines (k : Int))

/-- A store holding exactly the given lines, every other slot NULL, with the
initial values of the other globals. -/
def mkStore (ls : List Line) : Ed :=
  { lines := fun i => if 0 ≤ i then ls.get? i.toNat else none
    line_count := ls.length
    current_file := []
    last_a := 1
    last_b := 0 }

/-! ## Range defaults -/

/-- `to_range_defaults(&a, &b)`: returns the final `(*a, *b)`. -/
def to_range_defaults (ed : Ed) (a b : Int) : Int × Int :=
  let a := if a < 1 then 1 else a
  let b := if b < 1 ∨ b > ed.line_count then ed.line_count else b
  if a > b ∧ ed.line_count > 0 then (b, a) else (a, b)

/-! ## Line store primitives -/

/-- `free_line(idx)`. -/
def free_line (idx : Int) (ed : Ed) : Ed :=
  if idx ≥ 0 ∧ idx < ed.line_count ∧ (ed.lines idx).isSome then
    { ed with lines := setSlot ed.lines idx none }
  else ed

/-- `make_room(pos, count)`: the returned `int` and the new globals. -/
def make_room (pos count : Int) (ed : Ed) : Int × Ed :=
  if count ≤ 0 then (1, ed)
  else if ed.line_count + count > MAX_LINES then (0, ed)
  else
    let L := forDown (fun i L => setSlot L (i + count) (L i)) (ed.line_count - 1) pos ed.lines
    (1, { ed with lines := L, line_count := ed.line_count + count })

/-- `close_gap(start, count)`; the loop test `i + count < line_count` is
`i < line_count - count`. -/
def close_gap (start count : Int) (ed : Ed) : Ed :=
  let L := forUp (fun i L => setSlot L i (L (i + count))) start (ed.line_count - count) ed.lines
  { ed with lines := L, line_count := ed.line_count - count }

/-! ## Character input -/

/-- The read loop of `fgets`: at most `k` characters, stopping after a newline.
Returns the characters stored and the rest of the stream. -/
def fgetsAux : Nat → List Char → List Char × List Char
  | 0, inp => ([], inp)
  | _ + 1, [] => ([], [])
  | k + 1, c :: inp =>
    if c = '\n' then ([c], inp)
    else ((fgetsAux k inp).1.cons c, (fgetsAux k inp).2)

/-- `fgets(buf, size, f)`: `none` is the NULL returned at end of input;
otherwise the buffer holds at most `size - 1` characters. -/
def fgets (size : Nat) (inp : List Char) : Option (List Char × List Char) :=
  if inp = [] then none else some (fgetsAux (size - 1) inp)

/-- `chomp(s)`: drops one trailing newline or carriage return, then one more
carriage return. -/
def chomp (s : Line) : Line :=
  let s1 := if s.getLast? = some '\n' ∨ s.getLast? = some '\r' then s.dropLast else s
  if s1.getLast? = some '\r' then s1.dropLast else s1

/-- The C string held by a buffer: its characters before the first NUL byte.
`strlen`, `strcmp` and `xstrdup` see a buffer filled by `fgets` this way. -/
def cstr (buf : List Char) : Line :=
  buf.takeWhile (fun c => c ≠ Char.ofNat 0)

/-! ## Replace in line -/

/-- `strstr(s, needle)`: the offset of the first occurrence, `none` for NULL. -/
def strstr : Line → Line → Option Nat
  | [], needle => if needle.isPrefixOf [] then some 0 else none
  | c :: s, needle =>
    if needle.isPrefixOf (c :: s) then some 0
    else (strstr s needle).map (· + 1)

/-- By which `break` the loop of `replace_in_line` was left. -/
inductive LoopExit where
  | notFound
  | tooLong
  | once
  | limit
  deriving DecidableEq, Repr

/-- The `for(;;)` loop of `replace_in_line`, one iteration per unit of fuel, on
the loop variables `s`, `made` and `limit`.  `none` means the fuel ran out. -/
def replace_loop (oldp newp : Line) (global : Bool) :
    Nat → Line → Int → Int → Option (Line × Int × LoopExit)
  | 0, _, _, _ => none
  | fuel + 1, s, made, limit =>
    match strstr s oldp with
    | none => some (s, made, LoopExit.notFound)
    | some pfx =>
      let sfx := s.length - (pfx + oldp.length)
      if pfx + newp.length + sfx + 1 ≥ LINE_LEN then some (s, made, LoopExit.tooLong)
      else
        let buf := s.take pfx ++ newp ++ s.drop (pfx + oldp.length)
        if global = false then some (buf, made + 1, LoopExit.once)
        else if limit - 1 ≤ 0 then some (buf, made + 1, LoopExit.limit)
        else replace_loop oldp newp global fuel buf (made + 1) (limit - 1)

/-- `replace_in_line(&s, oldp, newp, global)`: the new `*s_ptr` and the returned
count.  The loop gets 1024 iterations (see `replace_loop_total`). -/
def replace_in_line (s oldp newp : Line) (global : Bool) : Option (Line × Int) :=
  if oldp.length = 0 then some (s, 0)
  else (replace_loop oldp newp global 1024 s 0 1024).map (fun r => (r.1, r.2.1))

/-! ## Commands -/

/-- `cmd_delete(a, b)`. -/
def cmd_delete (a b : Int) (ed : Ed) : Ed :=
  let r := to_range_defaults ed a b
  let a := if r.1 < 1 then 1 else r.1
  let b := if r.2 > ed.line_count then ed.line_count else r.2
  if ed.line_count = 0 ∨ a > b then ed
  else
    let ed1 := forUp free_line (a - 1) b ed
    let count := b - a + 1
    let ed2 := close_gap (a - 1) count ed1
    { ed2 with last_a := a, last_b := if a ≤ ed2.line_count then a else ed2.line_count }

/-- The loop of `cmd_insert`, one iteration per unit of fuel; returns the final
`pos`, the unread input and the globals.  `none` means the fuel ran out. -/
def cmd_insert_loop : Nat → Int → List Char → Ed → Option (Int × List Char × Ed)
  | 0, _, _, _ => none
  | fuel + 1, pos, inp, ed =>
    match fgets LINE_LEN inp with
    | none => some (pos, inp, ed)
    | some (raw, rest) =>
      let buf := chomp (cstr raw)
      if buf = ['.'] then some (pos, rest, ed)
      else
        let r := make_room pos 1 ed
        if r.1 = 0 then some (pos, rest, ed)
        else cmd_insert_loop fuel (pos + 1) rest { r.2 with lines := setSlot r.2.lines pos (some buf) }

/-- `cmd_insert(n)` reading from the stream `inp`: the globals afterwards and
the unread input.  Every iteration consumes at least one character, so
`inp.length + 1` iterations are enough (see `cmd_insert_total`). -/
def cmd_insert (n : Int) (inp : List Char) (ed : Ed) : Option (Ed × List Char) :=
  let n := if n < 1 ∨ n > ed.line_count + 1 then ed.line_count + 1 else n
  match cmd_insert_loop (inp.length + 1) (n - 1) inp ed with
  | none => none
  | some (pos, rest, ed1) => some ({ ed1 with last_a := n, last_b := pos }, rest)

/-! ## Typed input and specification-side readings of the global replace -/

/-- The stream a user produces by typing the given lines, each ended by a
newline. -/
def typed : List Line → List Char
  | [] => []
  | l :: ls => l ++ '\n' :: typed ls

/-- The insert loop stops at this input: it is at its end, or its next line is
read as a single dot. -/
def insertEnds (tail : List Char) : Prop :=
  ∀ raw rest, fgets LINE_LEN tail = some (raw, rest) → chomp (cstr raw) = ['.']

/-- The line stored for a typed line `l`: the C string of the chunk `l`,
newline, after `chomp`. -/
def storedLine (l : Line) : Line := chomp (cstr (l ++ ['\n']))

/-- The global replace as the specification words it: after each splice the
search for `oldp` goes on at the position right after the inserted replacement,
so that neither the text before it nor the replacement is matched again.
Returns the line and the number of replacements; the fuel bounds the number of
matches, and `replaceAllForward` supplies enough of it. -/
def replaceForward (oldp newp : Line) : Nat → Line → Line × Int
  | 0, s => (s, 0)
  | fuel + 1, s =>
    match strstr s oldp with
    | none => (s, 0)
    | some i =>
      (s.take i ++ newp ++ (replaceForward oldp newp fuel (s.drop (i + oldp.length))).1,
        (replaceForward oldp newp fuel (s.drop (i + oldp.length))).2 + 1)

/-- The specification's global replace on a whole line. -/
def replaceAllForward (s oldp newp : Line) : Line × Int :=
  replaceForward oldp newp (s.length + 1) s

/-- The number of offsets of `s` at which `t` occurs. -/
def countOccurrences (s t : Line) : Nat :=
  ((List.range (s.length + 1)).filter (fun j => t.isPrefixOf (s.drop j))).length

/-- `Rescan oldp newp s k t`: starting from `s`, replacing `k` times the first
occurrence of `oldp`, each time searched from the beginning of the line, gives
`t`, and every intermediate line passes the length test of `replace_in_line`. -/
inductive Rescan (oldp newp : Line) : Line → Nat → Line → Prop where
  | done (s : Line) : Rescan oldp newp s 0 s
  | step (s : Line) (i k : Nat) (t : Line) :
      strstr s oldp = some i →
      (s.take i ++ newp ++ s.drop (i + oldp.length)).length + 1 < LINE_LEN →
      Rescan oldp newp (s.take i ++ newp ++ s.drop (i + oldp.length)) k t →
      Rescan oldp newp s (k + 1) t

/-! ## Case-insensitive search -/

/-- `tolower` in the C locale: the letters A to Z go to a to z, every other
character stays. -/
def tolower (c : Char) : Char :=
  if 65 ≤ c.toNat ∧ c.toNat ≤ 90 then Char.ofNat (c.toNat + 32) else c

/-- The character `s[i]` of a C string; the terminating NUL at and after the
end. -/
def charAt (s : Line) (i : Nat) : Char := s.getD i (Char.ofNat 0)

/-- The inner loop of `strcasestr_pos` at offset `i`, from `j` on, with one unit
of fuel per iteration: the value of `j` when the loop is left. -/
def strcasestr_inner (hay needle : Line) (i : Nat) : Nat → Nat → Nat
  | 0, j => j
  | fuel + 1, j =>
    if j < needle.length then
      if tolower (charAt hay (i + j)) ≠ tolower (charAt needle j) then j
      else strcasestr_inner hay needle i fuel (j + 1)
    else j

/-- The outer loop of `strcasestr_pos` from `i` on, with one unit of fuel per
iteration. -/
def strcasestr_outer (hay needle : Line) : Nat → Nat → Int
  | 0, _ => -1
  | fuel + 1, i =>
    if i + needle.length ≤ hay.length then
      if strcasestr_inner hay needle i needle.length 0 = needle.length then (i : Int)
      else strcasestr_outer hay needle fuel (i + 1)
    else -1

/-- `strcasestr_pos(hay, needle)`.  The outer loop runs for at most
`strlen(hay) + 1` values of `i`. -/
def strcasestr_pos (hay needle : Line) : Int :=
  if needle.length = 0 then 0
  else strcasestr_outer hay needle (hay.length + 1) 0

/-! ## Parsing -/

/-- `isspace` in the C locale. -/
def isspace (c : Char) : Bool :=
  c = ' ' ∨ c = '\t' ∨ c = '\n' ∨ c = Char.ofNat 11 ∨ c = Char.ofNat 12 ∨ c = '\r'

/-- `isdigit`. -/
def isdigit (c : Char) : Bool := 48 ≤ c.toNat ∧ c.toNat ≤ 57

/-- The digit loop of `atoi`: the value read so far and the text left. -/
def atoiDigits : Int → Line → Int
  | acc, [] => acc
  | acc, c :: s => if isdigit c then atoiDigits (acc * 10 + ((c.toNat : Int) - 48)) s else acc

/-- The largest `int`, for an `int` of 32 bits. -/
def INT_MAX : Int := 2147483647

/-- The saturation of `strtol` at the bounds of a 64-bit `long`. -/
def clampLong (v : Int) : Int :=
  if v > 9223372036854775807 then 9223372036854775807
  else if v < -9223372036854775808 then -9223372036854775808
  else v

/-- The conversion of a `long` to a 32-bit `int`: the value modulo 2^32 within
`[-2^31, 2^31)`. -/
def toInt (v : Int) : Int := (v + 2147483648) % 4294967296 - 2147483648

/-- `atoi(s)`, that is `(int) strtol(s, NULL, 10)`: white space, an optional
sign, then digits up to the first other character.  A number that fits an
`int` is returned as it is.  For a larger one C leaves the result undefined;
the value here is the one of the usual library with a 64-bit `long` and a
32-bit `int`. -/
def atoi (s : Line) : Int :=
  toInt (clampLong
    (match s.dropWhile isspace with
    | '-' :: t => - atoiDigits 0 t
    | '+' :: t => atoiDigits 0 t
    | t => atoiDigits 0 t))

/-- `parse_range(p, &a, &b)`: the returned `int` and the values of `*a`, `*b`
afterwards (they stay as they were when 0 is returned). -/
def parse_range (ed : Ed) (p : Line) (a b : Int) : Int × Int × Int :=
  match p.dropWhile isspace with
  | [] => (1, 1, ed.line_count)
  | ch :: t =>
    if ch = ',' then
      (1, 1, if atoi t > 0 then atoi t else ed.line_count)
    else if isdigit ch = true then
      let x := atoi (ch :: t)
      let c2 := ((ch :: t).dropWhile isdigit).dropWhile isspace
      let y := match c2 with
        | ',' :: t2 => if t2.dropWhile isspace = [] then ed.line_count else atoi (t2.dropWhile isspace)
        | _ => x
      (1, if x > 0 then x else 1, if y > 0 then y else ed.line_count)
    else (0, a, b)

/-- `parse_between(p, delim, out, outsz)`: `none` for NULL, otherwise the text
stored in `out` (at most `outsz - 1` characters) and the text after the closing
delimiter. -/
def parse_between (p : Line) (delim : Char) (outsz : Nat) : Option (Line × Line) :=
  match p with
  | [] => none
  | c :: t =>
    if c ≠ delim then none
    else
      match t.dropWhile (fun x => x ≠ delim) with
      | [] => none
      | _ :: rest => some ((t.takeWhile (fun x => x ≠ delim)).take (outsz - 1), rest)

/-! ## File operations -/

/-- The read loop of `load_file`, one iteration per unit of fuel: 1 when the
end of the file was reached, 0 when the loop was left at `MAX_LINES`.  The
chunk read is taken whole, which is the C string the program stores when the
file holds no NUL byte. -/
def load_loop : Nat → List Char → Ed → Option (Int × Ed)
  | 0, _, _ => none
  | fuel + 1, inp, ed =>
    match fgets LINE_LEN inp with
    | none => some (1, ed)
    | some (raw, rest) =>
      let ed1 : Ed := { ed with lines := setSlot ed.lines ed.line_count (some (chomp raw))
                                line_count := ed.line_count + 1 }
      if ed1.line_count ≥ MAX_LINES then some (0, ed1)
      else load_loop fuel rest ed1

/-- `load_file(name)`; `file` is what `fopen(name, "rt")` gives, `none` when the
file cannot be opened.  Every `fgets` consumes a character, so `text.length + 1`
iterations are enough (see `load_file_total`). -/
def load_file (name : Line) (file : Option (List Char)) (ed : Ed) : Option (Int × Ed) :=
  match file with
  | none => some (0, ed)
  | some text =>
    match load_loop (text.length + 1) text { forUp free_line 0 ed.line_count ed with line_count := 0 } with
    | none => none
    | some (r, ed1) =>
      if r = 0 then some (0, ed1)
      else some (1, { ed1 with current_file := name.take 127, last_a := 1, last_b := ed1.line_count })

/-- `write_file(name)`; `opened` tells whether `fopen(name, "wt")` succeeds.
Returns the `int`, the text written and the globals. -/
def write_file (name : Line) (opened : Bool) (ed : Ed) : Int × List Char × Ed :=
  if opened = false then (0, [], ed)
  else
    (1, forUp (fun i out => out ++ ((ed.lines i).getD [] ++ ['\n'])) 0 ed.line_count [],
      { ed with current_file := name.take 127 })

/-! ## Range commands with their output -/

/-- What a command prints, one entry per output line. -/
inductive Out where
  | text (s : String)
  | numbered (idx : Int) (s : Line)
  | replaced (n : Int)
  | matches (n : Int)
  deriving DecidableEq

/-- `cmd_list(a, b)`. -/
def cmd_list (a b : Int) (ed : Ed) : List Out × Ed :=
  let r := to_range_defaults ed a b
  if ed.line_count = 0 then ([Out.text "(empty)"], ed)
  else
    (forUp (fun i out =>
        if i ≥ 1 ∧ i ≤ ed.line_count then out ++ [Out.numbered (i - 1) ((ed.lines (i - 1)).getD [])]
        else out) r.1 (r.2 + 1) [],
      { ed with last_a := r.1, last_b := r.2 })

/-- `cmd_edit(n)` reading the new text from `inp`. -/
def cmd_edit (n : Int) (inp : List Char) (ed : Ed) : Ed × List Char :=
  if n < 1 ∨ n > ed.line_count then (ed, inp)
  else
    match fgets LINE_LEN inp with
    | none => (ed, inp)
    | some (raw, rest) =>
      ({ free_line (n - 1) ed with
          lines := setSlot (free_line (n - 1) ed).lines (n - 1) (some (chomp (cstr raw)))
          last_a := n
          last_b := n }, rest)

/-- One iteration of the loop of `cmd_replace` on the slot array and `total`.
`replace_in_line` always returns (`replace_in_line_isSome`). -/
def replace_body (ed : Ed) (oldp newp : Line) (global : Bool) (i : Int) (st : Lines × Int) :
    Lines × Int :=
  if i ≥ 1 ∧ i ≤ ed.line_count then
    match st.1 (i - 1) with
    | none => st
    | some s =>
      match replace_in_line s oldp newp global with
      | none => st
      | some r => (setSlot st.1 (i - 1) (some r.1), st.2 + r.2)
  else st

/-- `cmd_replace(a, b, spec)`. -/
def cmd_replace (a b : Int) (spec : Line) (ed : Ed) : List Out × Ed :=
  match parse_between (spec.dropWhile isspace) '/' LINE_LEN with
  | none => ([Out.text "! syntax: R a,b /old/new/[g]"], ed)
  | some (oldp, p1) =>
    match parse_between (p1.dropWhile isspace) '/' LINE_LEN with
    | none => ([Out.text "! syntax: R a,b /old/new/[g]"], ed)
    | some (newp, p2) =>
      let global : Bool := (p2.dropWhile isspace).head? = some 'g' ∨ (p2.dropWhile isspace).head? = some 'G'
      let r := to_range_defaults ed a b
      let st := forUp (replace_body ed oldp newp global) r.1 (r.2 + 1) (ed.lines, 0)
      ([Out.replaced st.2], { ed with lines := st.1, last_a := r.1, last_b := r.2 })

/-- One iteration of the loop of `cmd_search` on the output and `hits`. -/
def search_body (ed : Ed) (pat : Line) (i : Int) (st : List Out × Int) : List Out × Int :=
  if i ≥ 1 ∧ i ≤ ed.line_count then
    match ed.lines (i - 1) with
    | none => st
    | some s => if strcasestr_pos s pat ≥ 0 then (st.1 ++ [Out.numbered (i - 1) s], st.2 + 1) else st
  else st

/-- The part of `cmd_search` after the pattern is known. -/
def search_range (a b : Int) (pat : Line) (ed : Ed) : List Out × Ed :=
  let r := to_range_defaults ed a b
  let st := forUp (search_body ed pat) r.1 (r.2 + 1) ([], 0)
  (st.1 ++ [Out.matches st.2], { ed with last_a := r.1, last_b := r.2 })

/-- `cmd_search(a, b, spec)`. -/
def cmd_search (a b : Int) (spec : Line) (ed : Ed) : List Out × Ed :=
  match spec.dropWhile isspace with
  | '/' :: t =>
    match parse_between ('/' :: t) '/' LINE_LEN with
    | none => ([Out.text "! syntax: S a,b /text/"], ed)
    | some (pat, _) => search_range a b pat ed
  | p => search_range a b (p.take (LINE_LEN - 1)) ed

/-! ## The command loop: the cases D and S -/

/-- The case `'D'` of the switch in `main`; `p` is the text after the command
letter and the blanks that follow it, and `a`, `b` start as -1. -/
def main_case_D (p : Line) (ed : Ed) : List Out × Ed :=
  if (parse_range ed p (-1) (-1)).1 = 0 then ([Out.text "! need D a[,b]"], ed)
  else ([], cmd_delete (parse_range ed p (-1) (-1)).2.1 (parse_range ed p (-1) (-1)).2.2 ed)

/-- The case `'S'` of the switch in `main`.  `buf` holds the first 511
characters of `p`; `strchr(buf, '/')` splits it into the range token and the
specification. -/
def main_case_S (p : Line) (ed : Ed) : List Out × Ed :=
  let buf := p.take 511
  match buf.dropWhile (fun c => c ≠ '/') with
  | [] => cmd_search 1 ed.line_count p ed
  | spec =>
    let tmp := buf.takeWhile (fun c => c ≠ '/')
    if tmp = [] then cmd_search (-1) (-1) spec ed
    else if (parse_range ed tmp (-1) (-1)).1 = 0 then ([Out.text "! bad range"], ed)
    else cmd_search (parse_range ed tmp (-1) (-1)).2.1 (parse_range ed tmp (-1) (-1)).2.2 spec ed

/-! ## Specification-side notions for search, parsing and files -/

/-- The needle matches `hay[i .. i+|needle|)`, a range inside `hay`, when
letters are compared ignoring ASCII case. -/
def matchesAt (hay needle : Line) (i : Nat) : Prop :=
  i + needle.length ≤ hay.length ∧
  ((hay.drop i).take needle.length).map tolower = needle.map tolower

/-- The text of a source file whose lines are given as pairs of a text and a
terminator: the lines of `body`, then `last`, the end of the file after the
last newline (both parts empty when the file ends with a newline). -/
def sourceText : List (Line × Line) → Line × Line → List Char
  | [], last => last.1 ++ last.2
  | r :: body, last => r.1 ++ r.2 ++ sourceText body last

/-- The lines of such a source, without their terminators. -/
def sourceLines (body : List (Line × Line)) (last : Line × Line) : List Line :=
  body.map (fun r => r.1) ++ (if last.1 ++ last.2 = [] then [] else [last.1])

/-- The number written by a string of decimal digits. -/
def decimal (ds : Line) : Int :=
  ds.foldl (fun acc c => acc * 10 + ((c.toNat : Int) - 48)) 0

/-- The slot holds a line in which `pat` occurs, case ignored. -/
def slotHit (pat : Line) (o : Option Line) : Bool :=
  match o with
  | some s => decide (strcasestr_pos s pat ≥ 0)
  | none => false

/-- The states the editor can reach from the empty store by loading files,
inserting, deleting, editing and replacing, with any arguments and any input. -/
inductive Reachable : Ed → Prop where
  | empty : Reachable (mkStore [])
  | load (ed : Ed) (name : Line) (file : Option (List Char)) (r : Int) (ed1 : Ed) :
      Reachable ed → load_file name file ed = some (r, ed1) → Reachable ed1
  | insert (ed : Ed) (n : Int) (inp : List Char) (ed1 : Ed) (rest : List Char) :
      Reachable ed → cmd_insert n inp ed = some (ed1, rest) → Reachable ed1
  | delete (ed : Ed) (a b : Int) : Reachable ed → Reachable (cmd_delete a b ed)
  | edit (ed : Ed) (n : Int) (inp : List Char) : Reachable ed → Reachable (cmd_edit n inp ed).1
  | replace (ed : Ed) (a b : Int) (spec : Line) :
      Reachable ed → Reachable (cmd_replace a b spec ed).2

/-- The store invariant: the count is within `[0, MAX_LINES]` and every line
held in a slot below the count has at most 255 characters. -/
def StoreInv (ed : Ed) : Prop :=
  0 ≤ ed.line_count ∧ ed.line_count ≤ MAX_LINES ∧
  ∀ (i : Int) (l : Line), 0 ≤ i → i < ed.line_count → ed.lines i = some l → l.length ≤ 255

/-! ## Auxiliary facts -/

theorem content_length (ed : Ed) : (content ed).length = ed.line_count.toNat := by
  simp [content]

theorem content_getElem? (ed : Ed) (k : Nat) (hk : k < ed.line_count.toNat) :
    (content ed)[k]? = some (ed.lines (k : Int)) := by
  simp [content, List.getElem?_range hk]

/-- Two buffers agree when they agree slot by slot. -/
theorem content_eq_iff (ed : Ed) (l : List (Option Line)) :
    content ed = l ↔
      l.length = ed.line_count.toNat ∧ ∀ k : Nat, k < ed.line_count.toNat → l[k]? = some (ed.lines (k : Int)) := by
  constructor
  · rintro rfl
    exact ⟨content_length ed, fun k hk => content_getElem? ed k hk⟩
  · rintro ⟨hlen, h⟩
    apply List.ext_getElem?
    intro k
    by_cases hk : k < ed.line_count.toNat
    · rw [content_getElem? ed k hk, h k hk]
    · rw [List.getElem?_eq_none (by rw [content_length]; omega),
        List.getElem?_eq_none (by omega)]

theorem setSlot_apply (L : Lines) (i j : Int) (v : Option Line) :
    setSlot L i v j = if j = i then v else L j := rfl

/-- The loop of `close_gap` reads only slots it has not yet written. -/
theorem shiftDown_apply (count : Int) (hc : 0 ≤ count) (k : Nat) (i : Int) (L : Lines) (j : Int) :
    forUpN (fun i L => setSlot L i (L (i + count))) k i L j =
      if i ≤ j ∧ j < i + k then L (j + count) else L j := by
  induction k generalizing i L with
  | zero =>
    have : ¬ (i ≤ j ∧ j < i + ((0 : Nat) : Int)) := by omega
    rw [if_neg this]; rfl
  | succ k ih =>
    rw [forUpN, ih]
    simp only [setSlot_apply]
    push_cast
    split_ifs <;> first | rfl | (exfalso; omega) | (congr 1; omega)

/-- The loop of `make_room` reads only slots it has not yet written. -/
theorem shiftUp_apply (count : Int) (hc : 0 ≤ count) (k : Nat) (i : Int) (L : Lines) (j : Int) :
    forDownN (fun i L => setSlot L (i + count) (L i)) k i L j =
      if i - k < j - count ∧ j - count ≤ i then L (j - count) else L j := by
  induction k generalizing i L with
  | zero =>
    have : ¬ (i - ((0 : Nat) : Int) < j - count ∧ j - count ≤ i) := by omega
    rw [if_neg this]; rfl
  | succ k ih =>
    rw [forDownN, ih]
    simp only [setSlot_apply]
    push_cast
    split_ifs with h1 h2 h3 h4 h5 h6 <;> first | rfl | (exfalso; omega) | (congr 1; omega)

theorem free_line_line_count (i : Int) (ed : Ed) : (free_line i ed).line_count = ed.line_count := by
  unfold free_line; split <;> rfl

theorem free_line_lines (i : Int) (ed : Ed) (j : Int) :
    (free_line i ed).lines j = if j = i ∧ 0 ≤ i ∧ i < ed.line_count then none else ed.lines j := by
  unfold free_line
  by_cases h : i ≥ 0 ∧ i < ed.line_count ∧ (ed.lines i).isSome = true
  · rw [if_pos h]
    simp only [setSlot_apply]
    by_cases hj : j = i
    · simp [hj, h.1, h.2.1]
    · simp [hj]
  · rw [if_neg h]
    by_cases hj : j = i ∧ 0 ≤ i ∧ i < ed.line_count
    · rw [if_pos hj]
      obtain ⟨rfl, h0, h1⟩ := hj
      cases hl : ed.lines j with
      | none => rfl
      | some v => exact absurd ⟨h0, h1, by simp [hl]⟩ h
    · rw [if_neg hj]

/-- The freeing loop of `cmd_delete` changes nothing but the freed slots. -/
theorem freeLoop_spec (k : Nat) (i : Int) (ed : Ed) :
    (forUpN free_line k i ed).line_count = ed.line_count ∧
    (forUpN free_line k i ed).last_a = ed.last_a ∧
    (forUpN free_line k i ed).last_b = ed.last_b ∧
    (forUpN free_line k i ed).current_file = ed.current_file ∧
    ∀ j, (forUpN free_line k i ed).lines j =
      if i ≤ j ∧ j < i + k ∧ 0 ≤ j ∧ j < ed.line_count then none else ed.lines j := by
  induction k generalizing i ed with
  | zero =>
    refine ⟨rfl, rfl, rfl, rfl, fun j => ?_⟩
    have : ¬ (i ≤ j ∧ j < i + ((0 : Nat) : Int) ∧ 0 ≤ j ∧ j < ed.line_count) := by omega
    rw [if_neg this]; rfl
  | succ k ih =>
    rw [forUpN]
    obtain ⟨h1, h2, h3, h4, h5⟩ := ih (i + 1) (free_line i ed)
    have hc := free_line_line_count i ed
    refine ⟨by rw [h1, hc], ?_, ?_, ?_, fun j => ?_⟩
    · rw [h2]; unfold free_line; split <;> rfl
    · rw [h3]; unfold free_line; split <;> rfl
    · rw [h4]; unfold free_line; split <;> rfl
    · rw [h5 j, hc, free_line_lines]
      push_cast
      split_ifs <;> first | rfl | (exfalso; omega)

/-! ## Range defaults (C2) -/

/-- C2 at the failing input.  With three lines in the store the bounds (5, 7)
come back from `to_range_defaults` as (3, 5): `b` is first clamped to the line
count 3, then the test `a > b` exchanges the two, so the upper bound left is
the 5 handed in as `a`, above the line count, and `b <= N` fails.  The exchange
undoes the clamp that the function has just made. -/
theorem to_range_defaults_above_count :
    (mkStore ["a".toList, "b".toList, "c".toList]).line_count = 3 ∧
    to_range_defaults (mkStore ["a".toList, "b".toList, "c".toList]) 5 7 = (3, 5) ∧
    ¬ ((to_range_defaults (mkStore ["a".toList, "b".toList, "c".toList]) 5 7).2 ≤
        (mkStore ["a".toList, "b".toList, "c".toList]).line_count) := by
  decide

/-- What `to_range_defaults` does guarantee on a store of `N > 0` lines: the
bounds left satisfy `1 <= a <= b` and `a <= N`; the upper bound is at most `N`
when the `a` handed in is at most `N`, and otherwise it is that `a`. -/
theorem to_range_defaults_bounds (ed : Ed) (a b : Int) (hN : ed.line_count > 0) :
    1 ≤ (to_range_defaults ed a b).1 ∧
    (to_range_defaults ed a b).1 ≤ (to_range_defaults ed a b).2 ∧
    (to_range_defaults ed a b).1 ≤ ed.line_count ∧
    (a ≤ ed.line_count → (to_range_defaults ed a b).2 ≤ ed.line_count) ∧
    (ed.line_count < a → (to_range_defaults ed a b).2 = a) := by
  unfold to_range_defaults
  by_cases h1 : a < 1 <;> by_cases h2 : b < 1 ∨ b > ed.line_count <;>
    simp only [h1, h2, if_true, if_false] <;> split_ifs <;> simp only <;>
    refine ⟨?_, ?_, ?_, fun _ => ?_, fun _ => ?_⟩ <;> first | trivial | omega

/-- The bounds of `to_range_defaults` at three lines: (2, 9) resolves to (2, 3). -/
theorem to_range_defaults_bounds_witness :
    (mkStore ["a".toList, "b".toList, "c".toList]).line_count > 0 ∧
    1 ≤ (to_range_defaults (mkStore ["a".toList, "b".toList, "c".toList]) 2 9).1 ∧
    (to_range_defaults (mkStore ["a".toList, "b".toList, "c".toList]) 2 9).1 ≤
      (to_range_defaults (mkStore ["a".toList, "b".toList, "c".toList]) 2 9).2 ∧
    (to_range_defaults (mkStore ["a".toList, "b".toList, "c".toList]) 2 9).1 ≤
      (mkStore ["a".toList, "b".toList, "c".toList]).line_count ∧
    ((2 : Int) ≤ (mkStore ["a".toList, "b".toList, "c".toList]).line_count →
      (to_range_defaults (mkStore ["a".toList, "b".toList, "c".toList]) 2 9).2 ≤
        (mkStore ["a".toList, "b".toList, "c".toList]).line_count) ∧
    ((mkStore ["a".toList, "b".toList, "c".toList]).line_count < 2 →
      (to_range_defaults (mkStore ["a".toList, "b".toList, "c".toList]) 2 9).2 = 2) :=
  ⟨by decide, to_range_defaults_bounds (mkStore ["a".toList, "b".toList, "c".toList]) 2 9 (by decide)⟩

/-! ## Delete (C3) -/

theorem close_gap_lines (start count : Int) (hc : 0 ≤ count) (ed : Ed) (j : Int) :
    (close_gap start count ed).lines j =
      if start ≤ j ∧ j < ed.line_count - count then ed.lines (j + count) else ed.lines j := by
  unfold close_gap forUp
  simp only
  rw [shiftDown_apply count hc]
  split_ifs <;> first | rfl | (exfalso; omega)

/-- `cmd_delete` on a range inside the store. -/
theorem cmd_delete_spec (ed : Ed) (a b : Int) (ha : 1 ≤ a) (hab : a ≤ b) (hb : b ≤ ed.line_count) :
    content (cmd_delete a b ed) = (content ed).take (a - 1).toNat ++ (content ed).drop b.toNat ∧
    (cmd_delete a b ed).line_count = ed.line_count - (b - a + 1) ∧
    (cmd_delete a b ed).last_a = a ∧
    (cmd_delete a b ed).last_b = min a (cmd_delete a b ed).line_count := by
  have hr : to_range_defaults ed a b = (a, b) := by
    unfold to_range_defaults
    simp only
    split_ifs <;> first | rfl | (exfalso; omega)
  have hdel : cmd_delete a b ed =
      { close_gap (a - 1) (b - a + 1) (forUp free_line (a - 1) b ed) with
        last_a := a
        last_b := if a ≤ (close_gap (a - 1) (b - a + 1) (forUp free_line (a - 1) b ed)).line_count
          then a else (close_gap (a - 1) (b - a + 1) (forUp free_line (a - 1) b ed)).line_count } := by
    unfold cmd_delete
    simp only [hr]
    rw [if_neg (by omega), if_neg (by omega), if_neg (by omega)]
  obtain ⟨f1, -, -, -, f5⟩ := freeLoop_spec (b - (a - 1)).toNat (a - 1) ed
  have hcount : (cmd_delete a b ed).line_count = ed.line_count - (b - a + 1) := by
    rw [hdel]
    show (forUp free_line (a - 1) b ed).line_count - (b - a + 1) = _
    unfold forUp
    rw [f1]
  refine ⟨(content_eq_iff _ _).2 ⟨?_, ?_⟩, hcount, by rw [hdel], ?_⟩
  · rw [hcount, List.length_append, List.length_take, List.length_drop, content_length]
    omega
  · intro k hk
    rw [hcount] at hk
    have hl : (cmd_delete a b ed).lines (k : Int) =
        if (k : Int) < a - 1 then ed.lines k else ed.lines (k + (b - a + 1)) := by
      rw [hdel]
      show (close_gap (a - 1) (b - a + 1) (forUp free_line (a - 1) b ed)).lines k = _
      rw [close_gap_lines _ _ (by omega)]
      unfold forUp
      rw [f1, f5, f5]
      split_ifs <;> first | rfl | (exfalso; omega)
    rw [hl]
    by_cases h1 : (k : Int) < a - 1
    · rw [if_pos h1, List.getElem?_append_left (by rw [List.length_take, content_length]; omega),
        List.getElem?_take_of_lt (by omega), content_getElem? _ _ (by omega)]
    · rw [if_neg h1, List.getElem?_append_right (by rw [List.length_take, content_length]; omega),
        List.getElem?_drop, List.length_take, content_length, content_getElem? _ _ (by omega)]
      congr 2
      omega
  · rw [hdel]
    show (if a ≤ _ then a else _) = min a _
    split_ifs with h
    · exact (min_eq_left h).symm
    · exact (min_eq_right (by omega)).symm

/-! ## Reading lines -/

theorem fgetsAux_line (l : Line) (rest : List Char) (hn : '\n' ∉ l) (k : Nat) (hk : l.length < k) :
    fgetsAux k (l ++ '\n' :: rest) = (l ++ ['\n'], rest) := by
  induction l generalizing k with
  | nil =>
    obtain ⟨k, rfl⟩ : ∃ m, k = m + 1 := ⟨k - 1, by simp at hk; omega⟩
    simp [fgetsAux]
  | cons c l ih =>
    obtain ⟨k, rfl⟩ : ∃ m, k = m + 1 := ⟨k - 1, by simp at hk; omega⟩
    have hc : c ≠ '\n' := fun h => hn (by simp [h])
    have hl : '\n' ∉ l := fun h => hn (by simp [h])
    have h := ih hl k (by simp at hk; omega)
    show fgetsAux (k + 1) (c :: (l ++ '\n' :: rest)) = _
    rw [fgetsAux, if_neg hc, h]
    rfl

/-- A line of at most `LINE_LEN - 2` characters followed by its newline is
read by one `fgets`, newline included. -/
theorem fgets_line (l : Line) (rest : List Char) (hn : '\n' ∉ l) (hlen : l.length + 1 < LINE_LEN) :
    fgets LINE_LEN (l ++ '\n' :: rest) = some (l ++ ['\n'], rest) := by
  unfold fgets
  rw [if_neg (by simp)]
  rw [fgetsAux_line l rest hn _ (by unfold LINE_LEN at *; omega)]

theorem chomp_line (l : Line) (hr : l.getLast? ≠ some '\r') : chomp (l ++ ['\n']) = l := by
  unfold chomp
  simp [hr]

theorem fgetsAux_shorter (k : Nat) (inp : List Char) (hk : 0 < k) (hi : inp ≠ []) :
    (fgetsAux k inp).2.length < inp.length := by
  induction inp generalizing k with
  | nil => exact absurd rfl hi
  | cons c inp ih =>
    obtain ⟨k, rfl⟩ : ∃ m, k = m + 1 := ⟨k - 1, by omega⟩
    simp only [fgetsAux]
    split_ifs
    · simp
    · simp only [List.length_cons]
      cases k with
      | zero => simp [fgetsAux]
      | succ k =>
        cases inp with
        | nil => simp [fgetsAux]
        | cons d inp =>
          have := ih (k + 1) (by omega) (by simp)
          omega

/-- Every successful `fgets` consumes at least one character. -/
theorem fgets_shorter (inp raw rest : List Char) (h : fgets LINE_LEN inp = some (raw, rest)) :
    rest.length < inp.length := by
  unfold fgets at h
  split_ifs at h with h0
  have := fgetsAux_shorter (LINE_LEN - 1) inp (by decide) h0
  simp only [Option.some.injEq] at h
  rw [h] at this
  exact this

/-- The loop of `cmd_insert` ends before `inp.length + 1` iterations. -/
theorem cmd_insert_loop_total (fuel : Nat) (pos : Int) (inp : List Char) (ed : Ed)
    (hf : inp.length < fuel) : (cmd_insert_loop fuel pos inp ed).isSome = true := by
  induction fuel generalizing pos inp ed with
  | zero => omega
  | succ fuel ih =>
    unfold cmd_insert_loop
    cases hg : fgets LINE_LEN inp with
    | none => rfl
    | some p =>
      obtain ⟨raw, rest⟩ := p
      have hlt := fgets_shorter inp raw rest hg
      simp only
      split_ifs
      · rfl
      · rfl
      · exact ih _ _ _ (by omega)

/-- `cmd_insert` returns on every input stream. -/
theorem cmd_insert_total (n : Int) (inp : List Char) (ed : Ed) :
    (cmd_insert n inp ed).isSome = true := by
  unfold cmd_insert
  simp only
  have h := cmd_insert_loop_total (inp.length + 1)
    ((if n < 1 ∨ n > ed.line_count + 1 then ed.line_count + 1 else n) - 1) inp ed (by omega)
  cases hl : cmd_insert_loop (inp.length + 1)
    ((if n < 1 ∨ n > ed.line_count + 1 then ed.line_count + 1 else n) - 1) inp ed with
  | none => rw [hl] at h; exact absurd h (by simp)
  | some r => rfl

/-! ## Making room -/

theorem make_room_one (pos : Int) (ed : Ed) (hfit : ed.line_count + 1 ≤ MAX_LINES) :
    (make_room pos 1 ed).1 = 1 ∧
    (make_room pos 1 ed).2.line_count = ed.line_count + 1 ∧
    (make_room pos 1 ed).2.last_a = ed.last_a ∧
    (make_room pos 1 ed).2.last_b = ed.last_b ∧
    (make_room pos 1 ed).2.current_file = ed.current_file ∧
    ∀ j, (make_room pos 1 ed).2.lines j =
      if pos < j ∧ j ≤ ed.line_count then ed.lines (j - 1) else ed.lines j := by
  unfold make_room
  rw [if_neg (by decide), if_neg (by omega)]
  refine ⟨rfl, rfl, rfl, rfl, rfl, fun j => ?_⟩
  simp only
  unfold forDown
  rw [shiftUp_apply 1 (by decide)]
  split_ifs <;> first | rfl | (exfalso; omega)

theorem make_room_full (pos : Int) (ed : Ed) (hfull : ed.line_count + 1 > MAX_LINES) :
    make_room pos 1 ed = (0, ed) := by
  unfold make_room
  rw [if_neg (by decide), if_pos hfull]

/-- One accepted line: room is made at `pos` and the line stored there. -/
theorem insert_step_content (pos : Int) (buf : Line) (ed : Ed)
    (h0 : 0 ≤ pos) (h1 : pos ≤ ed.line_count) (hfit : ed.line_count + 1 ≤ MAX_LINES) :
    content { (make_room pos 1 ed).2 with lines := setSlot (make_room pos 1 ed).2.lines pos (some buf) } =
      (content ed).take pos.toNat ++ some buf :: (content ed).drop pos.toNat := by
  obtain ⟨-, hc, -, -, -, hl⟩ := make_room_one pos ed hfit
  refine (content_eq_iff _ _).2 ⟨?_, ?_⟩
  · show _ = ((make_room pos 1 ed).2.line_count).toNat
    rw [hc, List.length_append, List.length_take, List.length_cons, List.length_drop, content_length]
    omega
  · intro k hk
    change k < ((make_room pos 1 ed).2.line_count).toNat at hk
    rw [hc] at hk
    show _ = some (setSlot (make_room pos 1 ed).2.lines pos (some buf) k)
    rw [setSlot_apply, hl]
    rcases lt_trichotomy (k : Int) pos with h | h | h
    · rw [if_neg (by omega), if_neg (by omega),
        List.getElem?_append_left (by rw [List.length_take, content_length]; omega),
        List.getElem?_take_of_lt (by omega), content_getElem? _ _ (by omega)]
    · have hk0 : k - pos.toNat = 0 := by omega
      rw [if_pos h, List.getElem?_append_right (by rw [List.length_take, content_length]; omega),
        List.length_take, content_length, min_eq_left (by omega), hk0]
      simp
    · obtain ⟨m, hm⟩ : ∃ m, k - pos.toNat = m + 1 := ⟨k - pos.toNat - 1, by omega⟩
      rw [if_neg (by omega), if_pos (by omega),
        List.getElem?_append_right (by rw [List.length_take, content_length]; omega),
        List.length_take, content_length, min_eq_left (by omega), hm, List.getElem?_cons_succ,
        List.getElem?_drop, content_getElem? _ _ (by omega)]
      congr 2
      omega

/-! ## The insert loop -/

theorem take_insert_drop {α : Type} (c : List α) (p : Nat) (x : α) (xs : List α) (hp : p ≤ c.length) :
    (c.take p ++ x :: c.drop p).take (p + 1) ++ xs ++ (c.take p ++ x :: c.drop p).drop (p + 1) =
      c.take p ++ x :: xs ++ c.drop p := by
  have hlen : (c.take p).length = p := by rw [List.length_take]; omega
  have h1 : (c.take p ++ x :: c.drop p).take (p + 1) = c.take p ++ [x] := by
    rw [List.take_append_eq_append_take, hlen]
    simp
  have h2 : (c.take p ++ x :: c.drop p).drop (p + 1) = c.drop p := by
    rw [List.drop_append_eq_append_drop, hlen]
    simp
  rw [h1, h2]
  simp

theorem take_drop_inserted {α : Type} (A M B : List α) :
    (A ++ M ++ B).take A.length ++ (A ++ M ++ B).drop (A.length + M.length) = A ++ B := by
  have h1 : (A ++ M ++ B).take A.length = A := by
    rw [List.append_assoc, List.take_left']
    rfl
  have h2 : (A ++ M ++ B).drop (A.length + M.length) = B := by
    rw [← List.length_append, List.drop_left']
    rfl
  rw [h1, h2]

/-- The insert loop on lines that each fit one read and are not read as the
closing dot: it stores them, each as `storedLine` gives it, one after the other
from `pos` on until the input ends or the store is full. -/
theorem cmd_insert_loop_spec (ls : List Line) (tail : List Char)
    (hls : ∀ l ∈ ls, l.length + 1 < LINE_LEN ∧ '\n' ∉ l ∧ storedLine l ≠ ['.'])
    (htail : insertEnds tail) (fuel : Nat) (pos : Int) (ed : Ed)
    (hf : (typed ls ++ tail).length < fuel)
    (h0 : 0 ≤ pos) (h1 : pos ≤ ed.line_count) (hcap : ed.line_count ≤ MAX_LINES) :
    ∃ rest ed1,
      cmd_insert_loop fuel pos (typed ls ++ tail) ed =
        some (pos + (min ls.length (MAX_LINES - ed.line_count).toNat : Nat), rest, ed1) ∧
      content ed1 = (content ed).take pos.toNat ++
        (ls.take (min ls.length (MAX_LINES - ed.line_count).toNat)).map
          (fun l => some (storedLine l)) ++
        (content ed).drop pos.toNat ∧
      ed1.line_count = ed.line_count + (min ls.length (MAX_LINES - ed.line_count).toNat : Nat) := by
  induction ls generalizing fuel pos ed with
  | nil =>
    obtain ⟨fuel, rfl⟩ : ∃ m, fuel = m + 1 := ⟨fuel - 1, by omega⟩
    simp only [typed, List.nil_append, List.length_nil, Nat.zero_min, Nat.cast_zero, add_zero,
      List.take_zero, List.map_nil, List.append_nil, List.take_append_drop]
    unfold cmd_insert_loop
    cases hg : fgets LINE_LEN tail with
    | none => exact ⟨tail, ed, rfl, rfl, rfl⟩
    | some p =>
      obtain ⟨raw, rest⟩ := p
      simp only [htail raw rest hg, if_true]
      exact ⟨rest, ed, rfl, rfl, rfl⟩
  | cons l ls ih =>
    obtain ⟨fuel, rfl⟩ : ∃ m, fuel = m + 1 := ⟨fuel - 1, by omega⟩
    obtain ⟨hlen, hnl, hdot⟩ := hls l (by simp)
    have hls1 : ∀ x ∈ ls, x.length + 1 < LINE_LEN ∧ '\n' ∉ x ∧ storedLine x ≠ ['.'] :=
      fun x hx => hls x (by simp [hx])
    have hst : chomp (cstr (l ++ ['\n'])) = storedLine l := rfl
    have hin : typed (l :: ls) ++ tail = l ++ '\n' :: (typed ls ++ tail) := by
      simp [typed]
    rw [hin] at hf ⊢
    unfold cmd_insert_loop
    rw [fgets_line l _ hnl hlen]
    simp only [hst, if_neg hdot]
    by_cases hfull : ed.line_count + 1 > MAX_LINES
    · rw [make_room_full pos ed hfull]
      have hm : (MAX_LINES - ed.line_count).toNat = 0 := by omega
      simp only [if_true, hm, Nat.min_zero, Nat.cast_zero, add_zero, List.take_zero, List.map_nil,
        List.append_nil, List.take_append_drop]
      exact ⟨_, ed, rfl, rfl, rfl⟩
    · obtain ⟨hr1, hc, -, -, -, -⟩ := make_room_one pos ed (by omega)
      rw [if_neg (by rw [hr1]; decide)]
      have hstep := insert_step_content pos (storedLine l) ed h0 h1 (by omega)
      have hlen2 : (typed ls ++ tail).length < fuel := by
        simp only [List.length_append, List.length_cons] at hf ⊢
        omega
      obtain ⟨rest, ed1, e1, e2, e3⟩ := ih hls1 fuel (pos + 1)
        { (make_room pos 1 ed).2 with
          lines := setSlot (make_room pos 1 ed).2.lines pos (some (storedLine l)) }
        hlen2 (by omega) (by show pos + 1 ≤ (make_room pos 1 ed).2.line_count; omega)
        (by show (make_room pos 1 ed).2.line_count ≤ MAX_LINES; omega)
      have hcnt : ({ (make_room pos 1 ed).2 with
          lines := setSlot (make_room pos 1 ed).2.lines pos (some (storedLine l)) } : Ed).line_count =
          ed.line_count + 1 := hc
      rw [hcnt] at e1 e2 e3
      have hmin : min (l :: ls).length (MAX_LINES - ed.line_count).toNat =
          min ls.length (MAX_LINES - (ed.line_count + 1)).toNat + 1 := by
        simp only [List.length_cons]
        omega
      refine ⟨rest, ed1, ?_, ?_, ?_⟩
      · rw [e1, hmin]
        congr 2
        push_cast
        omega
      · rw [e2, hstep, hmin, List.take_succ_cons, List.map_cons]
        have hp : (pos + 1).toNat = pos.toNat + 1 := by omega
        rw [hp]
        exact take_insert_drop (content ed) pos.toNat (some (storedLine l)) _
          (by rw [content_length]; omega)
      · rw [e3, hmin]
        push_cast
        omega

theorem insertEnds_nil : insertEnds [] := by
  intro raw rest h
  simp [fgets] at h

theorem insertEnds_dot (rest : List Char) : insertEnds ('.' :: '\n' :: rest) := by
  intro raw rest1 h
  have h1 : fgets LINE_LEN ('.' :: '\n' :: rest) = some (['.', '\n'], rest) := by
    simp [fgets, LINE_LEN, fgetsAux]
  rw [h1] at h
  cases h
  decide

/-- `cmd_insert(n)` on lines that each fit one read and are not read as the
closing dot: they are stored from the insert position on, as many as the store
has room for. -/
theorem cmd_insert_spec (ed : Ed) (n : Int) (ls : List Line) (tail : List Char)
    (h0 : 0 ≤ ed.line_count) (hcap : ed.line_count ≤ MAX_LINES)
    (hls : ∀ l ∈ ls, l.length + 1 < LINE_LEN ∧ '\n' ∉ l ∧ storedLine l ≠ ['.'])
    (htail : insertEnds tail) :
    ∃ ed1 rest,
      cmd_insert n (typed ls ++ tail) ed = some (ed1, rest) ∧
      content ed1 =
        (content ed).take ((if n < 1 ∨ n > ed.line_count + 1 then ed.line_count + 1 else n) - 1).toNat ++
        (ls.take (min ls.length (MAX_LINES - ed.line_count).toNat)).map
          (fun l => some (storedLine l)) ++
        (content ed).drop ((if n < 1 ∨ n > ed.line_count + 1 then ed.line_count + 1 else n) - 1).toNat ∧
      ed1.line_count = ed.line_count + (min ls.length (MAX_LINES - ed.line_count).toNat : Nat) ∧
      ed1.last_a = (if n < 1 ∨ n > ed.line_count + 1 then ed.line_count + 1 else n) ∧
      ed1.last_b = (if n < 1 ∨ n > ed.line_count + 1 then ed.line_count + 1 else n) - 1 +
        (min ls.length (MAX_LINES - ed.line_count).toNat : Nat) := by
  have hpos : 0 ≤ (if n < 1 ∨ n > ed.line_count + 1 then ed.line_count + 1 else n) - 1 ∧
      (if n < 1 ∨ n > ed.line_count + 1 then ed.line_count + 1 else n) - 1 ≤ ed.line_count := by
    split_ifs with h <;> omega
  obtain ⟨rest, ed1, e1, e2, e3⟩ := cmd_insert_loop_spec ls tail hls htail
    ((typed ls ++ tail).length + 1)
    ((if n < 1 ∨ n > ed.line_count + 1 then ed.line_count + 1 else n) - 1) ed
    (by omega) hpos.1 hpos.2 hcap
  refine ⟨{ ed1 with
      last_a := (if n < 1 ∨ n > ed.line_count + 1 then ed.line_count + 1 else n)
      last_b := (if n < 1 ∨ n > ed.line_count + 1 then ed.line_count + 1 else n) - 1 +
        (min ls.length (MAX_LINES - ed.line_count).toNat : Nat) }, rest, ?_, e2, e3, rfl, rfl⟩
  unfold cmd_insert
  simp only [e1]

theorem cstr_eq_self (l : List Char) (h : Char.ofNat 0 ∉ l) : cstr l = l := by
  unfold cstr
  rw [List.takeWhile_eq_self_iff]
  intro c hc
  simp only [decide_eq_true_eq]
  rintro rfl
  exact h hc

theorem cstr_length (l : List Char) : (cstr l).length ≤ l.length :=
  (List.takeWhile_sublist _).length_le

/-- A typed line without NUL byte that does not end in a carriage return is
stored as it is. -/
theorem storedLine_plain (l : Line) (hn : Char.ofNat 0 ∉ l) (hcr : l.getLast? ≠ some '\r') :
    storedLine l = l := by
  unfold storedLine
  rw [cstr_eq_self _ (by
    intro h
    rcases List.mem_append.1 h with h | h
    · exact hn h
    · revert h; decide)]
  exact chomp_line l hcr

/-- `cmd_insert(n)` on typed lines that are stored as they are. -/
theorem cmd_insert_spec_plain (ed : Ed) (n : Int) (ls : List Line) (tail : List Char)
    (h0 : 0 ≤ ed.line_count) (hcap : ed.line_count ≤ MAX_LINES)
    (hls : ∀ l ∈ ls, l.length + 1 < LINE_LEN ∧ '\n' ∉ l ∧ Char.ofNat 0 ∉ l ∧
      l.getLast? ≠ some '\r' ∧ l ≠ ['.'])
    (htail : insertEnds tail) :
    ∃ ed1 rest,
      cmd_insert n (typed ls ++ tail) ed = some (ed1, rest) ∧
      content ed1 =
        (content ed).take ((if n < 1 ∨ n > ed.line_count + 1 then ed.line_count + 1 else n) - 1).toNat ++
        (ls.take (min ls.length (MAX_LINES - ed.line_count).toNat)).map some ++
        (content ed).drop ((if n < 1 ∨ n > ed.line_count + 1 then ed.line_count + 1 else n) - 1).toNat ∧
      ed1.line_count = ed.line_count + (min ls.length (MAX_LINES - ed.line_count).toNat : Nat) := by
  obtain ⟨ed1, rest, e1, e2, e3, -, -⟩ := cmd_insert_spec ed n ls tail h0 hcap
    (fun l hl => by
      obtain ⟨a1, a2, a3, a4, a5⟩ := hls l hl
      exact ⟨a1, a2, by rw [storedLine_plain l a3 a4]; exact a5⟩) htail
  refine ⟨ed1, rest, e1, ?_, e3⟩
  rw [e2]
  congr 2
  apply List.map_congr_left
  intro l hl
  obtain ⟨-, -, a3, a4, -⟩ := hls l (List.mem_of_mem_take hl)
  rw [storedLine_plain l a3 a4]

/-- On a full store the insert loop changes nothing, whatever the input. -/
theorem cmd_insert_full (ed : Ed) (n : Int) (inp : List Char) (hfull : ed.line_count = MAX_LINES) :
    ∃ ed1 rest, cmd_insert n inp ed = some (ed1, rest) ∧
      content ed1 = content ed ∧ ed1.line_count = ed.line_count := by
  have key : ∀ pos, ∃ p rest, cmd_insert_loop (inp.length + 1) pos inp ed = some (p, rest, ed) := by
    intro pos
    unfold cmd_insert_loop
    cases hg : fgets LINE_LEN inp with
    | none => exact ⟨_, _, rfl⟩
    | some q =>
      obtain ⟨raw, rest⟩ := q
      simp only
      rw [make_room_full pos ed (by omega)]
      split_ifs with h1 h2
      · exact ⟨_, _, rfl⟩
      · exact ⟨_, _, rfl⟩
      · exact absurd rfl h2
  obtain ⟨p, rest, hk⟩ := key ((if n < 1 ∨ n > ed.line_count + 1 then ed.line_count + 1 else n) - 1)
  unfold cmd_insert
  simp only [hk]
  exact ⟨_, _, rfl, rfl, rfl⟩

/-! ## Searching a line -/

theorem strstr_le_length (s needle : Line) (i : Nat) (h : strstr s needle = some i) : i ≤ s.length := by
  induction s generalizing i with
  | nil =>
    unfold strstr at h
    split_ifs at h
    cases h
    exact Nat.le_refl 0
  | cons c s ih =>
    unfold strstr at h
    split_ifs at h
    · cases h
      exact Nat.zero_le _
    · cases hs : strstr s needle with
      | none => rw [hs] at h; cases h
      | some k =>
        rw [hs] at h
        cases h
        have := ih k hs
        simp only [List.length_cons]
        omega

/-- `strstr` returns the least offset at which the needle matches. -/
theorem strstr_eq_some_iff (s needle : Line) (i : Nat) :
    strstr s needle = some i ↔
      i ≤ s.length ∧ needle <+: s.drop i ∧ ∀ j < i, ¬ needle <+: s.drop j := by
  induction s generalizing i with
  | nil =>
    unfold strstr
    simp only [List.isPrefixOf_iff_prefix]
    constructor
    · intro h
      split_ifs at h with hp
      cases h
      exact ⟨Nat.le_refl 0, hp, fun j hj => absurd hj (Nat.not_lt_zero j)⟩
    · rintro ⟨hi, hp, -⟩
      have : i = 0 := by simpa using hi
      subst this
      exact if_pos hp
  | cons c s ih =>
    unfold strstr
    simp only [List.isPrefixOf_iff_prefix]
    by_cases hp : needle <+: c :: s
    · rw [if_pos hp]
      constructor
      · intro h
        cases h
        exact ⟨Nat.zero_le _, hp, fun j hj => absurd hj (Nat.not_lt_zero j)⟩
      · rintro ⟨-, -, hmin⟩
        cases i with
        | zero => rfl
        | succ i => exact absurd hp (hmin 0 (Nat.succ_pos i))
    · rw [if_neg hp]
      constructor
      · intro h
        cases hs : strstr s needle with
        | none => rw [hs] at h; cases h
        | some k =>
          rw [hs] at h
          cases h
          obtain ⟨h1, h2, h3⟩ := (ih k).1 hs
          refine ⟨by simp only [List.length_cons]; omega, h2, fun j hj => ?_⟩
          cases j with
          | zero => exact hp
          | succ j => exact h3 j (by simp only [Option.map_some', Option.some.injEq] at *; omega)
      · rintro ⟨h1, h2, h3⟩
        cases i with
        | zero => exact absurd h2 hp
        | succ i =>
          have hs := (ih i).2 ⟨by simp only [List.length_cons] at h1; omega, h2,
            fun j hj => h3 (j + 1) (by omega)⟩
          rw [hs]
          rfl

/-- `strstr` returns NULL exactly when the needle matches at no offset. -/
theorem strstr_eq_none_iff (s needle : Line) :
    strstr s needle = none ↔ ∀ j ≤ s.length, ¬ needle <+: s.drop j := by
  constructor
  · intro h j hj hp
    induction s generalizing j with
    | nil =>
      unfold strstr at h
      simp only [List.isPrefixOf_iff_prefix] at h
      have hj0 : j = 0 := by simpa using hj
      subst hj0
      have h2 : (if needle <+: [] then some 0 else none) = some 0 := if_pos hp
      rw [h2] at h
      cases h
    | cons c s ih =>
      unfold strstr at h
      simp only [List.isPrefixOf_iff_prefix] at h
      split_ifs at h with h0
      cases hs : strstr s needle with
      | some k => rw [hs] at h; cases h
      | none =>
        cases j with
        | zero => exact h0 hp
        | succ j => exact ih hs j (by simp only [List.length_cons] at hj; omega) hp
  · intro h
    cases hs : strstr s needle with
    | none => rfl
    | some i =>
      obtain ⟨h1, h2, -⟩ := (strstr_eq_some_iff s needle i).1 hs
      exact absurd h2 (h i h1)

/-- The first occurrence, given as a split of the line. -/
theorem strstr_split (pre old post : Line)
    (hfirst : ∀ j < pre.length, ¬ old <+: (pre ++ old ++ post).drop j) :
    strstr (pre ++ old ++ post) old = some pre.length := by
  rw [strstr_eq_some_iff]
  refine ⟨by simp only [List.length_append]; omega, ?_, hfirst⟩
  rw [List.append_assoc, List.drop_left']
  · exact List.prefix_append old post
  · rfl

theorem splice_split (pre old new post : Line) :
    (pre ++ old ++ post).take pre.length ++ new ++ (pre ++ old ++ post).drop (pre.length + old.length) =
      pre ++ new ++ post := by
  have h1 : (pre ++ old ++ post).take pre.length = pre := by
    rw [List.append_assoc, List.take_left']
    rfl
  have h2 : (pre ++ old ++ post).drop (pre.length + old.length) = post := by
    rw [← List.length_append, List.drop_left']
    rfl
  rw [h1, h2]

/-- Every match found by `strstr` splits the line around the needle. -/
theorem strstr_some_split (s old : Line) (i : Nat) (h : strstr s old = some i) :
    s = s.take i ++ old ++ s.drop (i + old.length) ∧ (s.take i).length = i := by
  obtain ⟨h1, ⟨t, ht⟩, -⟩ := (strstr_eq_some_iff s old i).1 h
  have hlen : (s.take i).length = i := by rw [List.length_take]; omega
  refine ⟨?_, hlen⟩
  have hd : s.drop (i + old.length) = t := by
    rw [← List.drop_drop, ← ht, List.drop_left']
    rfl
  rw [hd, List.append_assoc, ht, List.take_append_drop]

/-! ## The replace loop -/

theorem splice_length (s oldp newp : Line) (i : Nat) (h : strstr s oldp = some i) :
    (s.take i ++ newp ++ s.drop (i + oldp.length)).length =
      i + newp.length + (s.length - (i + oldp.length)) := by
  have := strstr_le_length s oldp i h
  simp only [List.length_append, List.length_take, List.length_drop]
  omega

/-- One iteration that finds a match and passes the length test. -/
theorem replace_loop_step (oldp newp : Line) (global : Bool) (fuel : Nat) (s : Line)
    (made limit : Int) (i : Nat) (h : strstr s oldp = some i)
    (hfit : (s.take i ++ newp ++ s.drop (i + oldp.length)).length + 1 < LINE_LEN) :
    replace_loop oldp newp global (fuel + 1) s made limit =
      if global = false then some (s.take i ++ newp ++ s.drop (i + oldp.length), made + 1, LoopExit.once)
      else if limit - 1 ≤ 0 then
        some (s.take i ++ newp ++ s.drop (i + oldp.length), made + 1, LoopExit.limit)
      else replace_loop oldp newp global fuel (s.take i ++ newp ++ s.drop (i + oldp.length))
        (made + 1) (limit - 1) := by
  rw [splice_length s oldp newp i h] at hfit
  rw [replace_loop]
  simp only [h]
  rw [if_neg (by omega)]

/-- One iteration that finds a match and fails the length test. -/
theorem replace_loop_long (oldp newp : Line) (global : Bool) (fuel : Nat) (s : Line)
    (made limit : Int) (i : Nat) (h : strstr s oldp = some i)
    (hlong : LINE_LEN ≤ (s.take i ++ newp ++ s.drop (i + oldp.length)).length + 1) :
    replace_loop oldp newp global (fuel + 1) s made limit = some (s, made, LoopExit.tooLong) := by
  rw [splice_length s oldp newp i h] at hlong
  rw [replace_loop]
  simp only [h]
  rw [if_pos (by omega)]

theorem replace_loop_none (oldp newp : Line) (global : Bool) (fuel : Nat) (s : Line)
    (made limit : Int) (h : strstr s oldp = none) :
    replace_loop oldp newp global (fuel + 1) s made limit = some (s, made, LoopExit.notFound) := by
  rw [replace_loop]
  simp only [h]

/-- With `limit` iterations of fuel the loop returns, with between `made` and
`made + limit` replacements, and more fuel does not change the result. -/
theorem replace_loop_total (oldp newp : Line) (global : Bool) (fuel : Nat) (s : Line)
    (made limit : Int) (h1 : 1 ≤ limit) (hf : limit ≤ fuel) :
    ∃ r, replace_loop oldp newp global fuel s made limit = some r ∧
      made ≤ r.2.1 ∧ r.2.1 ≤ made + limit ∧
      ∀ fuel2 : Nat, limit ≤ fuel2 → replace_loop oldp newp global fuel2 s made limit = some r := by
  induction fuel generalizing s made limit with
  | zero => omega
  | succ fuel ih =>
    have again : ∀ r, replace_loop oldp newp global (fuel + 1) s made limit = some r →
        (∀ f, replace_loop oldp newp global (f + 1) s made limit =
          replace_loop oldp newp global (fuel + 1) s made limit) →
        ∀ fuel2 : Nat, limit ≤ fuel2 → replace_loop oldp newp global fuel2 s made limit = some r := by
      intro r hr hsame fuel2 h2
      obtain ⟨f, rfl⟩ : ∃ m, fuel2 = m + 1 := ⟨fuel2 - 1, by omega⟩
      rw [hsame f, hr]
    cases hs : strstr s oldp with
    | none =>
      refine ⟨_, replace_loop_none oldp newp global fuel s made limit hs, le_refl _, by simp; omega,
        again _ (replace_loop_none oldp newp global fuel s made limit hs) (fun f => ?_)⟩
      rw [replace_loop_none _ _ _ _ _ _ _ hs, replace_loop_none _ _ _ _ _ _ _ hs]
    | some i =>
      by_cases hfit : (s.take i ++ newp ++ s.drop (i + oldp.length)).length + 1 < LINE_LEN
      · by_cases hg : global = false
        · have e : ∀ f, replace_loop oldp newp global (f + 1) s made limit =
              some (s.take i ++ newp ++ s.drop (i + oldp.length), made + 1, LoopExit.once) := by
            intro f
            rw [replace_loop_step oldp newp global f s made limit i hs hfit, if_pos hg]
          exact ⟨_, e fuel, by simp, by simp; omega, again _ (e fuel) (fun f => by rw [e f, e fuel])⟩
        · by_cases hl : limit - 1 ≤ 0
          · have e : ∀ f, replace_loop oldp newp global (f + 1) s made limit =
                some (s.take i ++ newp ++ s.drop (i + oldp.length), made + 1, LoopExit.limit) := by
              intro f
              rw [replace_loop_step oldp newp global f s made limit i hs hfit, if_neg hg, if_pos hl]
            exact ⟨_, e fuel, by simp, by simp; omega, again _ (e fuel) (fun f => by rw [e f, e fuel])⟩
          · have e : ∀ f, replace_loop oldp newp global (f + 1) s made limit =
                replace_loop oldp newp global f (s.take i ++ newp ++ s.drop (i + oldp.length))
                  (made + 1) (limit - 1) := by
              intro f
              rw [replace_loop_step oldp newp global f s made limit i hs hfit, if_neg hg, if_neg hl]
            obtain ⟨r, r1, r2, r3, r4⟩ := ih (s.take i ++ newp ++ s.drop (i + oldp.length))
              (made + 1) (limit - 1) (by omega) (by omega)
            refine ⟨r, by rw [e fuel, r1], by omega, by omega, fun fuel2 h2 => ?_⟩
            obtain ⟨f, rfl⟩ : ∃ m, fuel2 = m + 1 := ⟨fuel2 - 1, by omega⟩
            rw [e f]
            exact r4 f (by omega)
      · have e : ∀ f, replace_loop oldp newp global (f + 1) s made limit =
            some (s, made, LoopExit.tooLong) := fun f =>
          replace_loop_long oldp newp global f s made limit i hs (by omega)
        exact ⟨_, e fuel, le_refl _, by simp; omega, again _ (e fuel) (fun f => by rw [e f, e fuel])⟩

/-- Replacing a text by itself leaves the line as it is. -/
theorem splice_same (s t : Line) (i : Nat) (h : strstr s t = some i) :
    s.take i ++ t ++ s.drop (i + t.length) = s :=
  (strstr_some_split s t i h).1.symm

/-- The global loop with `oldp = newp` finds the same match until the limit
ends it. -/
theorem replace_loop_same (t : Line) (fuel : Nat) (s : Line) (made limit : Int) (i : Nat)
    (h : strstr s t = some i) (hfit : s.length + 1 < LINE_LEN) (h1 : 1 ≤ limit) (hf : limit ≤ fuel) :
    replace_loop t t true fuel s made limit = some (s, made + limit, LoopExit.limit) := by
  induction fuel generalizing made limit with
  | zero => omega
  | succ fuel ih =>
    have hsp := splice_same s t i h
    rw [replace_loop_step t t true fuel s made limit i h (by rw [hsp]; exact hfit), hsp,
      if_neg (by decide)]
    by_cases hl : limit - 1 ≤ 0
    · rw [if_pos hl]
      have : limit = 1 := by omega
      rw [this]
    · rw [if_neg hl, ih (made + 1) (limit - 1) (by omega) (by omega)]
      congr 3
      omega

/-- The loop follows a rescan run that ends without a further match. -/
theorem replace_loop_rescan (oldp newp : Line) (s t : Line) (k : Nat)
    (hrun : Rescan oldp newp s k t) (hend : strstr t oldp = none)
    (fuel : Nat) (made limit : Int) (hk : (k : Int) < limit) (hf : limit ≤ fuel) :
    replace_loop oldp newp true fuel s made limit = some (t, made + k, LoopExit.notFound) := by
  induction hrun generalizing fuel made limit with
  | done s =>
    obtain ⟨f, rfl⟩ : ∃ m, fuel = m + 1 := ⟨fuel - 1, by omega⟩
    rw [replace_loop_none _ _ _ _ _ _ _ hend]
    simp
  | step s i k t hs hfit _ ih =>
    obtain ⟨f, rfl⟩ : ∃ m, fuel = m + 1 := ⟨fuel - 1, by omega⟩
    rw [replace_loop_step oldp newp true f s made limit i hs hfit, if_neg (by decide),
      if_neg (by push_cast at hk; omega), ih hend f (made + 1) (limit - 1)
        (by push_cast at hk; omega) (by push_cast at hf; omega)]
    congr 3
    push_cast
    omega

/-! ## Delete (C3), insert (C4, C5) and insert-then-delete (C1) -/

/-- C3.  For `1 <= a <= b <= N`, `cmd_delete(a, b)` leaves the first `a-1` lines
followed by the lines after `b`, in order, lowers the count by `b-a+1`, and sets
the last-used range to `(a, min(a, new count))`. -/
theorem cmd_delete_correct (ed : Ed) (a b : Int) (ha : 1 ≤ a) (hab : a ≤ b) (hb : b ≤ ed.line_count) :
    content (cmd_delete a b ed) = (content ed).take (a - 1).toNat ++ (content ed).drop b.toNat ∧
    (cmd_delete a b ed).line_count = ed.line_count - (b - a + 1) ∧
    (cmd_delete a b ed).last_a = a ∧
    (cmd_delete a b ed).last_b = min a (cmd_delete a b ed).line_count :=
  cmd_delete_spec ed a b ha hab hb

/-- C3 on the store one, two, three: `D 2,2` leaves one, three with count 2 and
last range (2, 2). -/
theorem cmd_delete_correct_witness :
    content (cmd_delete 2 2 (mkStore ["one".toList, "two".toList, "three".toList])) =
      [some "one".toList, some "three".toList] ∧
    (cmd_delete 2 2 (mkStore ["one".toList, "two".toList, "three".toList])).line_count = 2 ∧
    (cmd_delete 2 2 (mkStore ["one".toList, "two".toList, "three".toList])).last_a = 2 ∧
    (cmd_delete 2 2 (mkStore ["one".toList, "two".toList, "three".toList])).last_b = 2 := by
  have h := cmd_delete_correct (mkStore ["one".toList, "two".toList, "three".toList]) 2 2
    (by decide) (by decide) (by decide)
  refine ⟨?_, ?_, h.2.2.1, ?_⟩ <;> decide

set_option maxRecDepth 100000 in
/-- C4, counterexample.  Typed lines are read by `fgets` into a buffer of
`LINE_LEN` bytes, at most 255 characters at a time.  One typed line of 256
characters, then the closing dot, inserted into the empty store is stored as
two lines, of 255 characters and of 1.  One typed line of 255 characters is
stored as two lines as well: the first `fgets` takes the 255 characters and
leaves the newline, which the second `fgets` reads as an empty line.  The typed
line a, NUL, b is stored as a, the C string of the buffer ending at the NUL
byte; the typed line a, CR is stored as a; and the typed line dot is not
stored. -/
theorem cmd_insert_long_line :
    (cmd_insert 1 (typed [List.replicate 256 'a'] ++ ['.', '\n']) (mkStore [])).map
        (fun r => (content r.1, r.1.line_count)) =
      some ([some (List.replicate 255 'a'), some ['a']], 2) ∧
    (cmd_insert 1 (typed [List.replicate 255 'a'] ++ ['.', '\n']) (mkStore [])).map
        (fun r => (content r.1, r.1.line_count)) =
      some ([some (List.replicate 255 'a'), some []], 2) ∧
    ¬ ((cmd_insert 1 (typed [List.replicate 255 'a'] ++ ['.', '\n']) (mkStore [])).map
        (fun r => (content r.1, r.1.line_count)) =
      some ([some (List.replicate 255 'a')], 1)) ∧
    (cmd_insert 1 (typed [['a', Char.ofNat 0, 'b']] ++ ['.', '\n']) (mkStore [])).map
        (fun r => (content r.1, r.1.line_count)) =
      some ([some ['a']], 1) ∧
    (cmd_insert 1 (typed [['a', '\r']] ++ ['.', '\n']) (mkStore [])).map
        (fun r => (content r.1, r.1.line_count)) =
      some ([some ['a']], 1) ∧
    (cmd_insert 1 (typed [['.'], ['a']] ++ ['.', '\n']) (mkStore [])).map
        (fun r => (content r.1, r.1.line_count)) =
      some ([], 0) := by
  refine ⟨?_, ?_, ?_, ?_, ?_, ?_⟩ <;> decide

/-- C4, amended.  For `1 <= n <= N+1` and typed lines that each have at most 254
characters, hold no newline and no NUL byte, do not end in a carriage return and
are not a single dot, with `N + |ls| <= 1200`: `cmd_insert(n)` returns and
leaves the first `n-1` lines, then `ls` in input order, then the remaining
lines, with count `N + |ls|`. -/
theorem cmd_insert_correct (ed : Ed) (n : Int) (ls : List Line) (tail : List Char)
    (hn1 : 1 ≤ n) (hn2 : n ≤ ed.line_count + 1)
    (hcap : ed.line_count + ls.length ≤ MAX_LINES)
    (hls : ∀ l ∈ ls, l.length + 1 < LINE_LEN ∧ '\n' ∉ l ∧ Char.ofNat 0 ∉ l ∧
      l.getLast? ≠ some '\r' ∧ l ≠ ['.'])
    (htail : insertEnds tail) :
    ∃ ed1 rest,
      cmd_insert n (typed ls ++ tail) ed = some (ed1, rest) ∧
      content ed1 = (content ed).take (n - 1).toNat ++ ls.map some ++ (content ed).drop (n - 1).toNat ∧
      ed1.line_count = ed.line_count + ls.length := by
  obtain ⟨ed1, rest, e1, e2, e3⟩ :=
    cmd_insert_spec_plain ed n ls tail (by omega) (by omega) hls htail
  have hm : min ls.length (MAX_LINES - ed.line_count).toNat = ls.length := by omega
  rw [hm, if_neg (by omega)] at e2
  rw [hm] at e3
  rw [List.take_length] at e2
  exact ⟨ed1, rest, e1, e2, e3⟩

/-- C4 on the store a, b: typing x and the closing dot at position 2 gives
a, x, b. -/
theorem cmd_insert_correct_witness :
    (cmd_insert 2 (typed ["x".toList] ++ ['.', '\n']) (mkStore ["a".toList, "b".toList])).map
        (fun r => (content r.1, r.1.line_count)) =
      some ([some "a".toList, some "x".toList, some "b".toList], 3) := by
  obtain ⟨ed1, rest, e1, e2, e3⟩ := cmd_insert_correct (mkStore ["a".toList, "b".toList]) 2
    ["x".toList] ['.', '\n'] (by decide) (by decide) (by decide) (by decide) (insertEnds_dot [])
  rw [e1, Option.map_some', e2, e3]
  decide

set_option maxRecDepth 100000 in
/-- C5, counterexample.  Into the empty store: one typed line of 255 characters
commits two lines (the 255 characters, then an empty line), not the one line
of the input; of the typed lines dot, a none is committed (the dot closes
the insert), not the first two; and of the typed lines dot NUL, a none is
committed either, the C string of the buffer being the dot. -/
theorem cmd_insert_commit_count :
    (cmd_insert 1 (typed [List.replicate 255 'a'] ++ ['.', '\n']) (mkStore [])).map
        (fun r => (content r.1, r.1.line_count)) =
      some ([some (List.replicate 255 'a'), some []], 2) ∧
    (cmd_insert 1 (typed [['.'], ['a']]) (mkStore [])).map
        (fun r => (content r.1, r.1.line_count)) = some ([], 0) ∧
    (cmd_insert 1 (typed [['.', Char.ofNat 0], ['a']]) (mkStore [])).map
        (fun r => (content r.1, r.1.line_count)) = some ([], 0) := by
  decide

/-- C5, amended.  On a store of `N <= 1200` lines, for typed lines that each have
at most 254 characters, hold no newline and no NUL byte, do not end in a
carriage return and are not a single dot: `cmd_insert` returns and commits
exactly the first `min(|ls|, 1200-N)` of them, at the insert position.  When
`N = 1200` the store's size and contents stay unchanged on every input
stream. -/
theorem cmd_insert_capacity (ed : Ed) (n : Int) (ls : List Line) (tail inp : List Char)
    (h0 : 0 ≤ ed.line_count) (hcap : ed.line_count ≤ MAX_LINES)
    (hls : ∀ l ∈ ls, l.length + 1 < LINE_LEN ∧ '\n' ∉ l ∧ Char.ofNat 0 ∉ l ∧
      l.getLast? ≠ some '\r' ∧ l ≠ ['.'])
    (htail : insertEnds tail) :
    (∃ ed1 rest,
      cmd_insert n (typed ls ++ tail) ed = some (ed1, rest) ∧
      content ed1 =
        (content ed).take ((if n < 1 ∨ n > ed.line_count + 1 then ed.line_count + 1 else n) - 1).toNat ++
        (ls.take (min ls.length (MAX_LINES - ed.line_count).toNat)).map some ++
        (content ed).drop ((if n < 1 ∨ n > ed.line_count + 1 then ed.line_count + 1 else n) - 1).toNat ∧
      ed1.line_count = ed.line_count + (min ls.length (MAX_LINES - ed.line_count).toNat : Nat)) ∧
    (ed.line_count = MAX_LINES →
      (make_room ((if n < 1 ∨ n > ed.line_count + 1 then ed.line_count + 1 else n) - 1) 1 ed).1 = 0 ∧
      ∃ ed1 rest, cmd_insert n inp ed = some (ed1, rest) ∧
        content ed1 = content ed ∧ ed1.line_count = ed.line_count) := by
  obtain ⟨ed1, rest, e1, e2, e3⟩ := cmd_insert_spec_plain ed n ls tail h0 hcap hls htail
  refine ⟨⟨ed1, rest, e1, e2, e3⟩, fun hfull => ⟨?_, cmd_insert_full ed n inp hfull⟩⟩
  rw [make_room_full _ ed (by omega)]

set_option maxRecDepth 100000 in
/-- C5 on a store of 1200 lines: typing x at line 5 is refused by `make_room`
and the store keeps its size and contents. -/
theorem cmd_insert_capacity_witness :
    (mkStore (List.replicate 1200 ['a'])).line_count = MAX_LINES ∧
    (make_room 4 1 (mkStore (List.replicate 1200 ['a']))).1 = 0 ∧
    ∃ ed1 rest,
      cmd_insert 5 (typed [['x']] ++ ['.', '\n']) (mkStore (List.replicate 1200 ['a'])) =
        some (ed1, rest) ∧
      content ed1 = content (mkStore (List.replicate 1200 ['a'])) ∧
      ed1.line_count = (mkStore (List.replicate 1200 ['a'])).line_count := by
  have hc : (mkStore (List.replicate 1200 ['a'])).line_count = MAX_LINES := by
    show ((List.replicate 1200 ['a']).length : Int) = 1200
    rw [List.length_replicate]
    rfl
  have h := (cmd_insert_capacity (mkStore (List.replicate 1200 ['a'])) 5 [['x']] ['.', '\n']
    (typed [['x']] ++ ['.', '\n']) (by rw [hc]; decide) (by rw [hc]) (by decide)
    (insertEnds_dot [])).2 hc
  rw [hc, if_neg (by decide)] at h
  exact ⟨hc, h.1, h.2⟩

set_option maxRecDepth 100000 in
/-- C1, counterexample.  Into the empty store at position 1, one typed line of
255 characters is stored as two lines, so deleting the range (1, 1) leaves an
empty line where the original store had none.  And on the store a, b the single
typed line dot closes the insert at once, so deleting (1, 1) removes a; the
typed lines dot CR and dot NUL are read as the closing dot as well. -/
theorem insert_then_delete_differs :
    (cmd_insert 1 (typed [List.replicate 255 'a'] ++ ['.', '\n']) (mkStore [])).map
        (fun r => (content (cmd_delete 1 1 r.1), (cmd_delete 1 1 r.1).line_count)) =
      some ([some []], 1) ∧
    (content (mkStore []), (mkStore []).line_count) = ([], 0) ∧
    (cmd_insert 1 (typed [['.']]) (mkStore [['a'], ['b']])).map
        (fun r => (content (cmd_delete 1 1 r.1), (cmd_delete 1 1 r.1).line_count)) =
      some ([some ['b']], 1) ∧
    (content (mkStore [['a'], ['b']]), (mkStore [['a'], ['b']]).line_count) =
      ([some ['a'], some ['b']], 2) ∧
    (cmd_insert 1 (typed [['.', '\r']]) (mkStore [['a'], ['b']])).map
        (fun r => (content (cmd_delete 1 1 r.1), (cmd_delete 1 1 r.1).line_count)) =
      some ([some ['b']], 1) ∧
    (cmd_insert 1 (typed [['.', Char.ofNat 0]]) (mkStore [['a'], ['b']])).map
        (fun r => (content (cmd_delete 1 1 r.1), (cmd_delete 1 1 r.1).line_count)) =
      some ([some ['b']], 1) := by
  refine ⟨?_, ?_, ?_, ?_, ?_, ?_⟩ <;> decide

/-- C1, amended.  For `1 <= p <= N+1` and `k >= 1` typed lines that each have at
most 254 characters, hold no newline and are not read as the closing dot (the
characters of the line and its newline that stand before the first NUL byte
are, after `chomp`, not a single dot), with `N + k <= 1200`: `cmd_insert` at
`p` followed by `cmd_delete(p, p+k-1)` yields the line count and the lines, in
order, of the original store. -/
theorem insert_then_delete_restores (ed : Ed) (p : Int) (ls : List Line) (tail : List Char)
    (hp1 : 1 ≤ p) (hp2 : p ≤ ed.line_count + 1) (hk : 1 ≤ ls.length)
    (hcap : ed.line_count + ls.length ≤ MAX_LINES)
    (hls : ∀ l ∈ ls, l.length + 1 < LINE_LEN ∧ '\n' ∉ l ∧ storedLine l ≠ ['.'])
    (htail : insertEnds tail) :
    ∃ ed1 rest,
      cmd_insert p (typed ls ++ tail) ed = some (ed1, rest) ∧
      content (cmd_delete p (p + ls.length - 1) ed1) = content ed ∧
      (cmd_delete p (p + ls.length - 1) ed1).line_count = ed.line_count := by
  obtain ⟨ed1, rest, e1, e2, e3, -, -⟩ := cmd_insert_spec ed p ls tail (by omega) (by omega) hls htail
  have hm : min ls.length (MAX_LINES - ed.line_count).toNat = ls.length := by omega
  rw [hm, if_neg (by omega), List.take_length] at e2
  rw [hm] at e3
  obtain ⟨d1, d2, -, -⟩ := cmd_delete_spec ed1 p (p + ls.length - 1) hp1 (by omega) (by omega)
  refine ⟨ed1, rest, e1, ?_, by omega⟩
  have hlen : ((content ed).take (p - 1).toNat).length = (p - 1).toNat := by
    rw [List.length_take, content_length]; omega
  have hb : (p + (ls.length : Int) - 1).toNat =
      ((content ed).take (p - 1).toNat).length +
        (ls.map (fun l => some (storedLine l))).length := by
    rw [hlen, List.length_map]; omega
  rw [d1, e2, hb]
  nth_rewrite 1 [← hlen]
  rw [take_drop_inserted, List.take_append_drop]

/-- C1 on the store a, b: typing x, y at position 2 and deleting (2, 3) gives
a, b back. -/
theorem insert_then_delete_restores_witness :
    (cmd_insert 2 (typed [['x'], ['y']] ++ ['.', '\n']) (mkStore [['a'], ['b']])).map
        (fun r => (content (cmd_delete 2 3 r.1), (cmd_delete 2 3 r.1).line_count)) =
      some ([some ['a'], some ['b']], 2) := by
  obtain ⟨ed1, rest, e1, e2, e3⟩ := insert_then_delete_restores (mkStore [['a'], ['b']]) 2
    [['x'], ['y']] ['.', '\n'] (by decide) (by decide) (by decide) (by decide) (by decide)
    (insertEnds_dot [])
  rw [e1, Option.map_some']
  have h23 : (2 : Int) + (([['x'], ['y']] : List Line).length : Int) - 1 = 3 := by decide
  rw [h23] at e2 e3
  rw [e2, e3]
  decide

/-! ## Replace in line (C6 to C10) -/

/-- The non-global replace where the length test of the code passes.  For
non-empty `old` and `global = false`: when `old` occurs in `s`, so that
`s = pre ++ old ++ post` with no occurrence starting before `pre` ends, and
`|pre ++ new ++ post| + 1 < LINE_LEN`, `replace_in_line` returns 1 and the line
becomes `pre ++ new ++ post`; when `old` occurs at no offset it returns 0 and
the line is unchanged.  The comparison is equality of characters. -/
theorem replace_first_only (s oldp newp pre post : Line) (hold : oldp ≠ []) :
    (s = pre ++ oldp ++ post → (∀ j < pre.length, ¬ oldp <+: s.drop j) →
      (pre ++ newp ++ post).length + 1 < LINE_LEN →
      replace_in_line s oldp newp false = some (pre ++ newp ++ post, 1)) ∧
    ((∀ j ≤ s.length, ¬ oldp <+: s.drop j) → replace_in_line s oldp newp false = some (s, 0)) := by
  have hlen : ¬ oldp.length = 0 := fun h => hold (List.length_eq_zero.1 h)
  constructor
  · intro hs hfirst hfit
    subst hs
    have hfound := strstr_split pre oldp post hfirst
    have hsp := splice_split pre oldp newp post
    unfold replace_in_line
    rw [if_neg hlen, replace_loop_step oldp newp false 1023 _ 0 1024 pre.length hfound
      (by rw [hsp]; exact hfit), hsp]
    rfl
  · intro hno
    unfold replace_in_line
    rw [if_neg hlen, replace_loop_none oldp newp false 1023 s 0 1024 ((strstr_eq_none_iff s oldp).2 hno)]
    rfl

/-- A direct call of `replace_in_line` on hello world with world and there: the
line becomes hello there and 1 is returned; on hello, where world does not
occur, 0 is returned. -/
theorem replace_first_only_witness :
    replace_in_line "hello world".toList "world".toList "there".toList false =
      some ("hello there".toList, 1) ∧
    replace_in_line "hello".toList "world".toList "there".toList false = some ("hello".toList, 0) :=
  ⟨(replace_first_only "hello world".toList "world".toList "there".toList "hello ".toList []
      (by decide)).1 (by decide) (by decide) (by decide),
    (replace_first_only "hello".toList "world".toList "there".toList [] [] (by decide)).2
      (by decide)⟩

/-- C6 at the failing inputs.  On the store hello world the command
`R 1,1 /world/there/` of the scenario is answered with the syntax message and
the line stays as it was: the first `parse_between` leaves the text there/,
which does not start with the delimiter that the second `parse_between` asks
for, although the message itself gives the form `/old/new/`.  Only with the
delimiter doubled, `/world//there/`, the line becomes hello there and 1
replacement is reported.  And on the line x followed by 253 times y (254
characters) with `old` x and `new` zz, `old` occurs at offset 0 and the result
has 255 characters, the longest line the store holds, yet `replace_in_line`
returns 0 and leaves the line unchanged: the length test
`prefix + sn + suffix + 1 >= LINE_LEN` is 256 >= 256. -/
theorem replace_first_scenario_fails :
    (cmd_replace 1 1 "/world/there/".toList (mkStore ["hello world".toList])).1 =
      [Out.text "! syntax: R a,b /old/new/[g]"] ∧
    content (cmd_replace 1 1 "/world/there/".toList (mkStore ["hello world".toList])).2 =
      [some "hello world".toList] ∧
    parse_between "/world/there/".toList '/' LINE_LEN = some ("world".toList, "there/".toList) ∧
    parse_between "there/".toList '/' LINE_LEN = none ∧
    (cmd_replace 1 1 "/world//there/".toList (mkStore ["hello world".toList])).1 =
      [Out.replaced 1] ∧
    content (cmd_replace 1 1 "/world//there/".toList (mkStore ["hello world".toList])).2 =
      [some "hello there".toList] ∧
    strstr ('x' :: List.replicate 253 'y') ['x'] = some 0 ∧
    (['z', 'z'] ++ List.replicate 253 'y').length = 255 ∧
    replace_in_line ('x' :: List.replicate 253 'y') ['x'] ['z', 'z'] false =
      some ('x' :: List.replicate 253 'y', 0) := by
  have hs : strstr ('x' :: List.replicate 253 'y') ['x'] = some 0 := by
    simp [strstr, List.isPrefixOf]
  have hlong : LINE_LEN ≤ (('x' :: List.replicate 253 'y').take 0 ++ ['z', 'z'] ++
      ('x' :: List.replicate 253 'y').drop (0 + ['x'].length)).length + 1 := by
    show LINE_LEN ≤ (['z', 'z'] ++ List.replicate 253 'y').length + 1
    rw [List.length_append, List.length_replicate]
    decide
  refine ⟨by decide, by decide, by decide, by decide, by decide, by decide, hs, ?_, ?_⟩
  · rw [List.length_append, List.length_replicate]
    rfl
  · unfold replace_in_line
    rw [if_neg (by decide), replace_loop_long ['x'] ['z', 'z'] false 1023 _ 0 1024 0 hs hlong]
    rfl

/-- C7, counterexample.  On aab with /ab/b/g the code leaves the loop because no
match is left (neither limit is hit) with the line b and 2 replacements: after
the first splice gives ab, the search starts again at the beginning of the
line and matches text that includes the inserted b.  The replacement that goes
on after the inserted text gives ab and 1. -/
theorem replace_global_not_forward :
    replace_loop "ab".toList "b".toList true 1024 "aab".toList 0 1024 =
      some ("b".toList, 2, LoopExit.notFound) ∧
    replace_in_line "aab".toList "ab".toList "b".toList true = some ("b".toList, 2) ∧
    replaceAllForward "aab".toList "ab".toList "b".toList = ("ab".toList, 1) := by
  decide

/-- C7, amended.  For non-empty `old`, when neither the line-length test nor
the 1024-iteration bound is hit, `replace_in_line` with `global = true` produces
the line and the count of the repeated replacement in which, after each
splice, the search for `old` starts again at the beginning of the line, until
no match is left. -/
theorem replace_global_rescans (s oldp newp t : Line) (k : Nat) (hold : oldp ≠ [])
    (hrun : Rescan oldp newp s k t) (hend : strstr t oldp = none) (hk : k < 1024) :
    replace_in_line s oldp newp true = some (t, (k : Int)) := by
  have hlen : ¬ oldp.length = 0 := fun h => hold (List.length_eq_zero.1 h)
  unfold replace_in_line
  rw [if_neg hlen, replace_loop_rescan oldp newp s t k hrun hend 1024 0 1024
    (by omega) (by decide)]
  simp

/-- C7, amended, on aab with /ab/b/g: two rescans give b. -/
theorem replace_global_rescans_witness :
    replace_in_line "aab".toList "ab".toList "b".toList true = some ("b".toList, 2) :=
  replace_global_rescans "aab".toList "ab".toList "b".toList "b".toList 2 (by decide)
    (Rescan.step "aab".toList 1 1 "b".toList (by decide) (by decide)
      (Rescan.step "ab".toList 0 0 "b".toList (by decide) (by decide) (Rescan.done "b".toList)))
    (by decide) (by decide)

/-- C8, counterexample.  Replacing a by a in the line a with `global = true`
returns 1024, while a occurs once in the line: the search starts again at the
beginning of the line after every splice and finds the same occurrence until
the iteration bound ends the loop. -/
theorem replace_same_counts_limit :
    replace_in_line ['a'] ['a'] ['a'] true = some (['a'], 1024) ∧
    countOccurrences ['a'] ['a'] = 1 := by
  refine ⟨?_, by decide⟩
  unfold replace_in_line
  rw [if_neg (by decide), replace_loop_same ['a'] 1024 ['a'] 0 1024 0 (by decide) (by decide)
    (by decide) (by decide)]
  rfl

/-- C8, amended.  Replacing a non-empty `t` by itself leaves the line content
unchanged in both modes.  The count is 0 when `t` does not occur in the line;
when `t` occurs and the line has at most 254 characters the count is 1 with
`global = false` and 1024, the iteration bound, with `global = true`. -/
theorem replace_same_text (s t : Line) (global : Bool) (j : Nat) (ht : t ≠ []) :
    (∃ m, replace_in_line s t t global = some (s, m)) ∧
    ((∀ i ≤ s.length, ¬ t <+: s.drop i) → replace_in_line s t t global = some (s, 0)) ∧
    (j ≤ s.length → t <+: s.drop j → s.length + 1 < LINE_LEN →
      replace_in_line s t t global = some (s, if global = true then 1024 else 1)) := by
  have hlen : ¬ t.length = 0 := fun h => ht (List.length_eq_zero.1 h)
  have hnone : strstr s t = none → replace_in_line s t t global = some (s, 0) := by
    intro hs
    unfold replace_in_line
    rw [if_neg hlen, replace_loop_none t t global 1023 s 0 1024 hs]
    rfl
  have hsome : ∀ i, strstr s t = some i → s.length + 1 < LINE_LEN →
      replace_in_line s t t global = some (s, if global = true then 1024 else 1) := by
    intro i hs hfit
    unfold replace_in_line
    rw [if_neg hlen]
    cases global with
    | false =>
      rw [replace_loop_step t t false 1023 s 0 1024 i hs (by rw [splice_same s t i hs]; exact hfit),
        splice_same s t i hs]
      rfl
    | true =>
      rw [replace_loop_same t 1024 s 0 1024 i hs hfit (by decide) (by decide)]
      rfl
  refine ⟨?_, fun hno => hnone ((strstr_eq_none_iff s t).2 hno), fun hj hocc hfit => ?_⟩
  · cases hs : strstr s t with
    | none => exact ⟨0, hnone hs⟩
    | some i =>
      by_cases hfit : s.length + 1 < LINE_LEN
      · exact ⟨_, hsome i hs hfit⟩
      · refine ⟨0, ?_⟩
        unfold replace_in_line
        rw [if_neg hlen, replace_loop_long t t global 1023 s 0 1024 i hs
          (by rw [splice_same s t i hs]; omega)]
        rfl
  · cases hs : strstr s t with
    | none => exact absurd hocc ((strstr_eq_none_iff s t).1 hs j hj)
    | some i => exact hsome i hs hfit

/-- C8, amended, on the line banana: an by an gives 1 without g and 1024 with g,
xy by xy gives 0, and the line stays banana. -/
theorem replace_same_text_witness :
    replace_in_line "banana".toList "an".toList "an".toList false = some ("banana".toList, 1) ∧
    replace_in_line "banana".toList "an".toList "an".toList true = some ("banana".toList, 1024) ∧
    replace_in_line "banana".toList "xy".toList "xy".toList true = some ("banana".toList, 0) :=
  ⟨(replace_same_text "banana".toList "an".toList false 1 (by decide)).2.2
      (by decide) (by decide) (by decide),
    (replace_same_text "banana".toList "an".toList true 1 (by decide)).2.2
      (by decide) (by decide) (by decide),
    (replace_same_text "banana".toList "xy".toList true 0 (by decide)).2.1 (by decide)⟩

/-- C9.  For every line `s` and all `old`, `new` (also `new` containing `old`),
the loop of `replace_in_line` with `global = true` ends within 1024 iterations:
1024 units of fuel give a result, the returned count is between 0 and 1024, and
any larger amount of fuel gives the same result, so the result depends on
`(s, old, new)` only. -/
theorem replace_global_terminates (s oldp newp : Line) :
    (∃ r, replace_loop oldp newp true 1024 s 0 1024 = some r ∧ 0 ≤ r.2.1 ∧ r.2.1 ≤ 1024 ∧
      ∀ extra : Nat, replace_loop oldp newp true (1024 + extra) s 0 1024 = some r) ∧
    (∃ line made, replace_in_line s oldp newp true = some (line, made) ∧ 0 ≤ made ∧ made ≤ 1024) := by
  obtain ⟨r, r1, r2, r3, r4⟩ := replace_loop_total oldp newp true 1024 s 0 1024 (by decide) (by decide)
  refine ⟨⟨r, r1, r2, by omega, fun extra => r4 (1024 + extra) (by push_cast; omega)⟩, ?_⟩
  unfold replace_in_line
  split_ifs
  · exact ⟨s, 0, rfl, le_refl _, by decide⟩
  · rw [r1]
    exact ⟨r.1, r.2.1, rfl, r2, by omega⟩

/-- C10 at the failing input.  The line is b followed by 253 times a (254
characters), `old` is b and `new` is cc, so the resulting line would have 255
characters, the maximum line length.  The length test
`prefix + sn + suffix + 1 >= LINE_LEN` is 256 >= 256, so `replace_in_line`
returns 0 and leaves the line unchanged, although `old` occurs at offset 0 and
the result fits a buffer of `LINE_LEN` bytes. -/
theorem replace_refuses_255 :
    ('b' :: List.replicate 253 'a').length = 254 ∧
    strstr ('b' :: List.replicate 253 'a') ['b'] = some 0 ∧
    (([] : Line) ++ ['c', 'c'] ++ List.replicate 253 'a').length = 255 ∧
    replace_in_line ('b' :: List.replicate 253 'a') ['b'] ['c', 'c'] false =
      some ('b' :: List.replicate 253 'a', 0) := by
  have hs : strstr ('b' :: List.replicate 253 'a') ['b'] = some 0 := by
    simp [strstr, List.isPrefixOf]
  have hlong : LINE_LEN ≤ (('b' :: List.replicate 253 'a').take 0 ++ ['c', 'c'] ++
      ('b' :: List.replicate 253 'a').drop (0 + ['b'].length)).length + 1 := by
    show LINE_LEN ≤ (['c', 'c'] ++ List.replicate 253 'a').length + 1
    rw [List.length_append, List.length_replicate]
    decide
  refine ⟨by rw [List.length_cons, List.length_replicate], hs, ?_, ?_⟩
  · rw [List.length_append, List.length_replicate]
    rfl
  · unfold replace_in_line
    rw [if_neg (by decide), replace_loop_long ['b'] ['c', 'c'] false 1023 _ 0 1024 0 hs hlong]
    rfl

/-! ## Case-insensitive search (C11) -/

theorem charAt_lt (s : Line) (i : Nat) (h : i < s.length) : charAt s i = s[i] := by
  unfold charAt
  simp [List.getD, List.getElem?_eq_getElem h]

/-- The inner loop reaches the end of the needle exactly when all remaining
characters agree. -/
theorem strcasestr_inner_eq (hay needle : Line) (i fuel j : Nat)
    (hj : j ≤ needle.length) (hf : needle.length ≤ fuel + j) :
    strcasestr_inner hay needle i fuel j = needle.length ↔
      ∀ k, j ≤ k → k < needle.length →
        tolower (charAt hay (i + k)) = tolower (charAt needle k) := by
  induction fuel generalizing j with
  | zero =>
    have : j = needle.length := by omega
    subst this
    simp only [strcasestr_inner, true_iff]
    intro k h1 h2
    omega
  | succ fuel ih =>
    rw [strcasestr_inner]
    by_cases hlt : j < needle.length
    · rw [if_pos hlt]
      by_cases hne : tolower (charAt hay (i + j)) ≠ tolower (charAt needle j)
      · rw [if_pos hne]
        constructor
        · intro h; omega
        · intro h; exact absurd (h j (le_refl j) hlt) hne
      · rw [if_neg hne, ih (j + 1) (by omega) (by omega)]
        have he : tolower (charAt hay (i + j)) = tolower (charAt needle j) := not_not.1 hne
        constructor
        · intro h k h1 h2
          by_cases hk : k = j
          · subst hk; exact he
          · exact h k (by omega) h2
        · intro h k h1 h2
          exact h k (by omega) h2
    · rw [if_neg hlt]
      have : j = needle.length := by omega
      subst this
      simp only [true_iff]
      intro k h1 h2
      omega

/-- The index form and the list form of a match. -/
theorem matchesAt_iff (hay needle : Line) (i : Nat) :
    matchesAt hay needle i ↔
      i + needle.length ≤ hay.length ∧
      ∀ k, k < needle.length → tolower (charAt hay (i + k)) = tolower (charAt needle k) := by
  unfold matchesAt
  constructor
  · rintro ⟨hle2, h⟩
    refine ⟨hle2, fun k hk => ?_⟩
    have h1 := congrArg (fun l => l[k]?) h
    simp only [List.getElem?_map, List.getElem?_take_of_lt hk, List.getElem?_drop] at h1
    rw [List.getElem?_eq_getElem (by omega), List.getElem?_eq_getElem hk] at h1
    simp only [Option.map_some', Option.some.injEq] at h1
    rw [charAt_lt hay (i + k) (by omega), charAt_lt needle k hk]
    exact h1
  · rintro ⟨hle, h⟩
    refine ⟨hle, ?_⟩
    apply List.ext_getElem?
    intro k
    by_cases hk : k < needle.length
    · simp only [List.getElem?_map, List.getElem?_take_of_lt hk, List.getElem?_drop]
      rw [List.getElem?_eq_getElem (by omega), List.getElem?_eq_getElem hk]
      simp only [Option.map_some', Option.some.injEq]
      have := h k hk
      rw [charAt_lt hay (i + k) (by omega), charAt_lt needle k hk] at this
      exact this
    · rw [List.getElem?_eq_none (by simp; omega), List.getElem?_eq_none (by simp; omega)]

/-- The outer loop returns the least matching offset from `i` on, or -1 when
there is none. -/
theorem strcasestr_outer_spec (hay needle : Line) (fuel i : Nat) (hf : hay.length < fuel + i) :
    (strcasestr_outer hay needle fuel i = -1 ∧ ∀ k, i ≤ k → ¬ matchesAt hay needle k) ∨
    (∃ m, i ≤ m ∧ strcasestr_outer hay needle fuel i = (m : Int) ∧ matchesAt hay needle m ∧
      ∀ k, i ≤ k → k < m → ¬ matchesAt hay needle k) := by
  induction fuel generalizing i with
  | zero =>
    left
    refine ⟨rfl, fun k hk hm => ?_⟩
    have := hm.1
    omega
  | succ fuel ih =>
    rw [strcasestr_outer]
    by_cases hle : i + needle.length ≤ hay.length
    · rw [if_pos hle]
      have hin := strcasestr_inner_eq hay needle i needle.length 0 (Nat.zero_le _) (by omega)
      by_cases hfull : strcasestr_inner hay needle i needle.length 0 = needle.length
      · rw [if_pos hfull]
        right
        refine ⟨i, le_refl i, rfl, ?_, fun k h1 h2 => by omega⟩
        rw [matchesAt_iff]
        exact ⟨hle, fun k hk => hin.1 hfull k (Nat.zero_le _) hk⟩
      · rw [if_neg hfull]
        have hno : ¬ matchesAt hay needle i := by
          rw [matchesAt_iff]
          rintro ⟨-, h⟩
          exact hfull (hin.2 (fun k _ hk => h k hk))
        rcases ih (i + 1) (by omega) with ⟨h1, h2⟩ | ⟨m, h1, h2, h3, h4⟩
        · left
          refine ⟨h1, fun k hk => ?_⟩
          by_cases hki : k = i
          · subst hki; exact hno
          · exact h2 k (by omega)
        · right
          refine ⟨m, by omega, h2, h3, fun k hk1 hk2 => ?_⟩
          by_cases hki : k = i
          · subst hki; exact hno
          · exact h4 k (by omega) hk2
    · rw [if_neg hle]
      left
      refine ⟨rfl, fun k hk hm => ?_⟩
      have := hm.1
      omega

/-- C11.  `strcasestr_pos(hay, needle)` returns the smallest offset at which
the needle matches `hay[i .. i+|needle|)` with ASCII letters compared ignoring
case, and returns -1 exactly when there is no such offset; World is found in
Hello World at offset 6. -/
theorem strcasestr_pos_correct (hay needle : Line) :
    (∀ i : Nat, strcasestr_pos hay needle = (i : Int) ↔
      (matchesAt hay needle i ∧ ∀ k, k < i → ¬ matchesAt hay needle k)) ∧
    (strcasestr_pos hay needle = -1 ↔ ∀ i, ¬ matchesAt hay needle i) ∧
    strcasestr_pos "Hello World".toList "World".toList = 6 := by
  have key : (strcasestr_pos hay needle = -1 ∧ ∀ k, ¬ matchesAt hay needle k) ∨
      (∃ m : Nat, strcasestr_pos hay needle = (m : Int) ∧ matchesAt hay needle m ∧
        ∀ k, k < m → ¬ matchesAt hay needle k) := by
    unfold strcasestr_pos
    by_cases h0 : needle.length = 0
    · rw [if_pos h0]
      right
      refine ⟨0, rfl, ?_, fun k hk => absurd hk (Nat.not_lt_zero k)⟩
      rw [matchesAt_iff]
      exact ⟨by omega, fun k hk => by omega⟩
    · rw [if_neg h0]
      rcases strcasestr_outer_spec hay needle (hay.length + 1) 0 (by omega) with ⟨h1, h2⟩ | ⟨m, -, h2, h3, h4⟩
      · exact Or.inl ⟨h1, fun k => h2 k (Nat.zero_le k)⟩
      · exact Or.inr ⟨m, h2, h3, fun k hk => h4 k (Nat.zero_le k) hk⟩
  refine ⟨fun i => ?_, ?_, by decide⟩
  · rcases key with ⟨h1, h2⟩ | ⟨m, h1, h2, h3⟩
    · rw [h1]
      constructor
      · intro h; omega
      · rintro ⟨h, -⟩; exact absurd h (h2 i)
    · rw [h1]
      constructor
      · intro h
        have : m = i := by omega
        subst this
        exact ⟨h2, h3⟩
      · rintro ⟨hi, hmin⟩
        have : m = i := by
          rcases lt_trichotomy m i with h | h | h
          · exact absurd h2 (hmin m h)
          · exact h
          · exact absurd hi (h3 i h)
        rw [this]
  · rcases key with ⟨h1, h2⟩ | ⟨m, h1, h2, h3⟩
    · rw [h1]
      exact ⟨fun _ => h2, fun _ => rfl⟩
    · rw [h1]
      constructor
      · intro h; omega
      · intro h; exact absurd h2 (h m)

/-! ## Parsing a range (C13, C14) -/

theorem isdigit_not_space (c : Char) (h : isdigit c = true) : isspace c = false := by
  unfold isdigit at h
  unfold isspace
  simp only [decide_eq_true_eq] at h
  simp only [decide_eq_false_iff_not]
  intro hc
  rcases hc with rfl | rfl | rfl | rfl | rfl | rfl <;> revert h <;> decide

theorem isdigit_not_sign (c : Char) (h : isdigit c = true) : c ≠ ',' ∧ c ≠ '-' ∧ c ≠ '+' := by
  unfold isdigit at h
  simp only [decide_eq_true_eq] at h
  refine ⟨?_, ?_, ?_⟩ <;> rintro rfl <;> revert h <;> decide

theorem atoiDigits_digits (ds rest : Line) (acc : Int) (hd : ∀ c ∈ ds, isdigit c = true)
    (hr : ∀ c t, rest = c :: t → isdigit c = false) :
    atoiDigits acc (ds ++ rest) = ds.foldl (fun acc c => acc * 10 + ((c.toNat : Int) - 48)) acc := by
  induction ds generalizing acc with
  | nil =>
    cases rest with
    | nil => rfl
    | cons c t =>
      simp only [List.nil_append, atoiDigits, hr c t rfl, List.foldl_nil]
      rfl
  | cons d ds ih =>
    simp only [List.cons_append, atoiDigits, hd d (by simp), if_true, List.foldl_cons]
    exact ih _ (fun c hc => hd c (by simp [hc]))

theorem dropWhile_space_digits (d : Char) (t : Line) (h : isdigit d = true) :
    (d :: t).dropWhile isspace = d :: t := by
  simp [List.dropWhile, isdigit_not_space d h]

theorem dropWhile_digits (ds rest : Line) (hd : ∀ c ∈ ds, isdigit c = true)
    (hr : ∀ c t, rest = c :: t → isdigit c = false) :
    (ds ++ rest).dropWhile isdigit = rest := by
  induction ds with
  | nil =>
    cases rest with
    | nil => rfl
    | cons c t => simp [List.dropWhile, hr c t rfl]
  | cons d ds ih =>
    simp only [List.cons_append, List.dropWhile, hd d (by simp)]
    exact ih (fun c hc => hd c (by simp [hc]))

theorem decimal_foldl_nonneg (ds : Line) (hd : ∀ c ∈ ds, isdigit c = true) (acc : Int)
    (h0 : 0 ≤ acc) :
    0 ≤ ds.foldl (fun acc c => acc * 10 + ((c.toNat : Int) - 48)) acc := by
  induction ds generalizing acc with
  | nil => exact h0
  | cons d ds ih =>
    rw [List.foldl_cons]
    apply ih (fun c hc => hd c (by simp [hc]))
    have hdg := hd d (by simp)
    simp only [isdigit, decide_eq_true_eq] at hdg
    omega

theorem decimal_nonneg (ds : Line) (hd : ∀ c ∈ ds, isdigit c = true) : 0 ≤ decimal ds :=
  decimal_foldl_nonneg ds hd 0 (le_refl 0)

/-- A value from 0 to `INT_MAX` passes through the conversions of `atoi`
unchanged. -/
theorem toInt_clampLong (v : Int) (h0 : 0 ≤ v) (h1 : v ≤ INT_MAX) : toInt (clampLong v) = v := by
  unfold INT_MAX at h1
  unfold toInt clampLong
  rw [if_neg (by omega), if_neg (by omega)]
  omega

/-- `atoi` on digits, of a value up to `INT_MAX`, followed by a character that
is no digit. -/
theorem atoi_digits (ds rest : Line) (hd : ∀ c ∈ ds, isdigit c = true)
    (hr : ∀ c t, rest = c :: t → isdigit c = false)
    (hs : ds = [] → ∀ c t, rest = c :: t → isspace c = false ∧ c ≠ '-' ∧ c ≠ '+')
    (hb : decimal ds ≤ INT_MAX) :
    atoi (ds ++ rest) = decimal ds := by
  have hraw : (match (ds ++ rest).dropWhile isspace with
      | '-' :: t => - atoiDigits 0 t
      | '+' :: t => atoiDigits 0 t
      | t => atoiDigits 0 t) = decimal ds := by
    unfold decimal
    cases ds with
    | nil =>
      cases rest with
      | nil => rfl
      | cons c t =>
        obtain ⟨h1, h2, h3⟩ := hs rfl c t rfl
        have hdw : ([] ++ c :: t).dropWhile isspace = c :: t := by
          simp [List.dropWhile, h1]
        rw [hdw]
        split
        · rename_i heq; cases heq; exact absurd rfl h2
        · rename_i heq; cases heq; exact absurd rfl h3
        · simp [atoiDigits, hr c t rfl]
    | cons d ds =>
      have hdg := hd d (by simp)
      obtain ⟨-, h2, h3⟩ := isdigit_not_sign d hdg
      rw [List.cons_append, dropWhile_space_digits d _ hdg]
      split
      · rename_i heq; cases heq; exact absurd rfl h2
      · rename_i heq; cases heq; exact absurd rfl h3
      · exact atoiDigits_digits (d :: ds) rest 0 hd hr
  unfold atoi
  rw [hraw]
  exact toInt_clampLong _ (decimal_nonneg ds hd) hb

theorem not_digit_comma : isdigit ',' = false := by decide

theorem not_space_comma : isspace ',' = false := by decide

/-- C13, counterexample.  With three lines in the store the digits-only token
0 gives the bounds (1, 3): the upper bound falls back to the line count, it is
not the 0 of the token.  And the digits-only token 2147483648, one above
`INT_MAX`, gives the bounds (1, 3) as well: its value does not fit the `int`
that `atoi` returns. -/
theorem parse_range_zero :
    (mkStore [['a'], ['b'], ['c']]).line_count = 3 ∧
    parse_range (mkStore [['a'], ['b'], ['c']]) ['0'] (-1) (-1) = (1, 1, 3) ∧
    decimal ['0'] = 0 ∧
    parse_range (mkStore [['a'], ['b'], ['c']]) "2147483648".toList (-1) (-1) = (1, 1, 3) ∧
    decimal "2147483648".toList = 2147483648 ∧
    INT_MAX = 2147483647 := by
  refine ⟨?_, ?_, ?_, ?_, ?_, ?_⟩ <;> decide

/-- C13, amended.  For a store of count `N` and tokens made of digit strings
`X` (not empty) and `Y` whose values are at most `INT_MAX` (2147483647),
`parse_range` returns 1 with the bounds: empty token `(1, N)`; `,Y` gives
`(1, Y if Y>0 else N)`; digits-only `X` gives `(X, X)` if `X>0` and `(1, N)`
otherwise; `X,Y` gives `(X if X>0 else 1, Y if Y>0 else N)`. -/
theorem parse_range_grammar (ed : Ed) (dx dy : Line) (a b : Int) (hx0 : dx ≠ [])
    (hx : ∀ c ∈ dx, isdigit c = true) (hy : ∀ c ∈ dy, isdigit c = true)
    (hbx : decimal dx ≤ INT_MAX) (hby : decimal dy ≤ INT_MAX) :
    parse_range ed [] a b = (1, 1, ed.line_count) ∧
    parse_range ed (',' :: dy) a b = (1, 1, if decimal dy > 0 then decimal dy else ed.line_count) ∧
    parse_range ed dx a b =
      (1, if decimal dx > 0 then decimal dx else 1,
        if decimal dx > 0 then decimal dx else ed.line_count) ∧
    parse_range ed (dx ++ ',' :: dy) a b =
      (1, if decimal dx > 0 then decimal dx else 1,
        if decimal dy > 0 then decimal dy else ed.line_count) := by
  have hnone : ∀ c t, ([] : Line) = c :: t → isdigit c = false := fun c t h => by cases h
  have hcomma : ∀ c t, (',' :: dy) = c :: t → isdigit c = false := fun c t h => by
    cases h; exact not_digit_comma
  have hay : atoi dy = decimal dy := by
    have h := atoi_digits dy [] hy hnone (fun _ c t h => by cases h) hby
    rwa [List.append_nil] at h
  obtain ⟨d, ds, rfl⟩ : ∃ d ds, dx = d :: ds := by
    cases dx with
    | nil => exact absurd rfl hx0
    | cons d ds => exact ⟨d, ds, rfl⟩
  have hd := hx d (by simp)
  obtain ⟨hdc, -, -⟩ := isdigit_not_sign d hd
  have hax : atoi (d :: ds) = decimal (d :: ds) := by
    have h := atoi_digits (d :: ds) [] hx hnone (fun h => by cases h) hbx
    rwa [List.append_nil] at h
  have hax2 : atoi (d :: (ds ++ ',' :: dy)) = decimal (d :: ds) :=
    atoi_digits (d :: ds) (',' :: dy) hx hcomma (fun h => by cases h) hbx
  refine ⟨rfl, ?_, ?_, ?_⟩
  · unfold parse_range
    simp only [List.dropWhile, not_space_comma, if_true, hay]
  · unfold parse_range
    rw [dropWhile_space_digits d ds hd]
    simp only [if_neg hdc, hd, if_true, hax]
    have h1 : (d :: ds).dropWhile isdigit = [] := by
      have := dropWhile_digits (d :: ds) [] hx hnone
      rwa [List.append_nil] at this
    rw [h1]
    rfl
  · unfold parse_range
    rw [List.cons_append, dropWhile_space_digits d _ hd]
    simp only [if_neg hdc, hd, if_true, hax2]
    have h1 : (d :: (ds ++ ',' :: dy)).dropWhile isdigit = ',' :: dy :=
      dropWhile_digits (d :: ds) (',' :: dy) hx hcomma
    rw [h1]
    have h2 : (',' :: dy).dropWhile isspace = ',' :: dy := by
      simp [List.dropWhile, not_space_comma]
    rw [h2]
    simp only
    cases dy with
    | nil =>
      simp only [List.dropWhile, if_true]
      have : decimal [] = 0 := rfl
      rw [this]
      simp
    | cons e es =>
      have he := hy e (by simp)
      have hne : ¬ (e :: es = []) := by simp
      rw [dropWhile_space_digits e es he, hay]
      simp only [if_neg hne]

/-- C13, amended, with three lines in the store: the tokens 2 and 2,3 and ,2. -/
theorem parse_range_grammar_witness :
    parse_range (mkStore [['a'], ['b'], ['c']]) ['2'] (-1) (-1) = (1, 2, 2) ∧
    parse_range (mkStore [['a'], ['b'], ['c']]) ['2', ',', '3'] (-1) (-1) = (1, 2, 3) ∧
    parse_range (mkStore [['a'], ['b'], ['c']]) [',', '2'] (-1) (-1) = (1, 1, 2) := by
  have h := parse_range_grammar (mkStore [['a'], ['b'], ['c']]) ['2'] ['3'] (-1) (-1)
    (by decide) (by decide) (by decide) (by decide) (by decide)
  have h2 := parse_range_grammar (mkStore [['a'], ['b'], ['c']]) ['2'] ['2'] (-1) (-1)
    (by decide) (by decide) (by decide) (by decide) (by decide)
  refine ⟨h.2.2.1.trans (by decide), h.2.2.2.trans (by decide), h2.2.1.trans (by decide)⟩

/-- C14, counterexample.  With three lines in the store the tokens 3abc and
3,abc are accepted: `parse_range` returns 1 with the bounds (3, 3) in both
cases (for 3,abc the upper bound is the line count). -/
theorem parse_range_accepts_trailing :
    parse_range (mkStore [['a'], ['b'], ['c']]) "3abc".toList (-1) (-1) = (1, 3, 3) ∧
    parse_range (mkStore [['a'], ['b'], ['c']]) "3,abc".toList (-1) (-1) = (1, 3, 3) ∧
    parse_range (mkStore [['a'], ['b'], ['c'], ['d']]) "3,abc".toList (-1) (-1) = (1, 3, 4) := by
  decide

/-- C14, amended.  `parse_range` returns 0 exactly for the tokens whose first
character after leading white space exists and is neither a comma nor a digit,
and then `*a` and `*b` are left as they were; whatever follows a leading digit
or comma is accepted. -/
theorem parse_range_fails_iff (ed : Ed) (p : Line) (a b : Int) :
    ((parse_range ed p a b).1 = 0 ↔
      ∃ ch t, p.dropWhile isspace = ch :: t ∧ ch ≠ ',' ∧ isdigit ch = false) ∧
    ((parse_range ed p a b).1 = 0 ∨ (parse_range ed p a b).1 = 1) ∧
    ((parse_range ed p a b).1 = 0 ∧ parse_range ed p a b = (0, a, b) ∨
      (parse_range ed p a b).1 = 1) := by
  unfold parse_range
  cases hp : p.dropWhile isspace with
  | nil =>
    simp
  | cons ch t =>
    simp only
    by_cases hc : ch = ','
    · simp [hc]
    · by_cases hd : isdigit ch = true
      · simp [hc, hd]
      · have hd2 : isdigit ch = false := by simpa using hd
        simp [hc, hd2]

/-! ## The D command without a range (C15) and out-of-range deletes (C20) -/

/-- C15 at the failing input.  In the case `'D'` an empty remainder is
accepted by `parse_range` as the range (1, line count): no error is printed
and `cmd_delete` removes every line of the store a, b. -/
theorem main_case_D_empty_deletes_all :
    parse_range (mkStore [['a'], ['b']]) [] (-1) (-1) = (1, 1, 2) ∧
    (main_case_D [] (mkStore [['a'], ['b']])).1 = [] ∧
    content (main_case_D [] (mkStore [['a'], ['b']])).2 = [] ∧
    (main_case_D [] (mkStore [['a'], ['b']])).2.line_count = 0 ∧
    content (mkStore [['a'], ['b']]) = [some ['a'], some ['b']] := by
  decide

/-- C20 at the failing input.  On the store a, b, c both bounds of
`cmd_delete(5, 7)` are above the line count; `to_range_defaults` turns them
into (3, 5), `cmd_delete` clamps the upper bound to 3, and line 3, which is
outside the requested interval, is removed. -/
theorem cmd_delete_out_of_range :
    to_range_defaults (mkStore [['a'], ['b'], ['c']]) 5 7 = (3, 5) ∧
    content (cmd_delete 5 7 (mkStore [['a'], ['b'], ['c']])) = [some ['a'], some ['b']] ∧
    (cmd_delete 5 7 (mkStore [['a'], ['b'], ['c']])).line_count = 2 ∧
    content (mkStore [['a'], ['b'], ['c']]) = [some ['a'], some ['b'], some ['c']] := by
  decide

/-! ## Range commands on the empty store (C18) -/

theorem to_range_defaults_empty (ed : Ed) (a b : Int) (h0 : ed.line_count = 0) :
    to_range_defaults ed a b = (if a < 1 then 1 else a, 0) := by
  unfold to_range_defaults
  have hb : b < 1 ∨ b > ed.line_count := by omega
  simp only [hb, if_true]
  rw [if_neg (by omega), h0]

theorem forUp_empty {σ : Type} (body : Int → σ → σ) (lo hi : Int) (s : σ) (h : hi ≤ lo) :
    forUp body lo hi s = s := by
  unfold forUp
  have : (hi - lo).toNat = 0 := by omega
  rw [this]
  rfl

/-- C18.  On a store with count 0, for every pair of bounds (the empty range
token gives (1, 0)): `cmd_list` and `cmd_delete` return the globals unchanged,
and `cmd_replace` and `cmd_search` leave the slot array and the count as they
were and give the same output and last range whatever the slot array holds, so
no slot is read or modified. -/
theorem empty_store_noop (ed : Ed) (a b : Int) (spec : Line) (L : Lines) (h0 : ed.line_count = 0) :
    parse_range ed [] a b = (1, 1, 0) ∧
    cmd_list a b ed = ([Out.text "(empty)"], ed) ∧
    cmd_delete a b ed = ed ∧
    ((cmd_replace a b spec ed).2.lines = ed.lines ∧ (cmd_replace a b spec ed).2.line_count = 0 ∧
      cmd_replace a b spec { ed with lines := L } =
        ((cmd_replace a b spec ed).1, { (cmd_replace a b spec ed).2 with lines := L })) ∧
    ((cmd_search a b spec ed).2.lines = ed.lines ∧ (cmd_search a b spec ed).2.line_count = 0 ∧
      cmd_search a b spec { ed with lines := L } =
        ((cmd_search a b spec ed).1, { (cmd_search a b spec ed).2 with lines := L })) := by
  have hr : ∀ e : Ed, e.line_count = 0 → to_range_defaults e a b = (if a < 1 then 1 else a, 0) :=
    fun e he => to_range_defaults_empty e a b he
  have hlo : (0 : Int) + 1 ≤ (if a < 1 then 1 else a) := by split_ifs <;> omega
  have hsr : ∀ pat : Line,
      (search_range a b pat ed).2.lines = ed.lines ∧ (search_range a b pat ed).2.line_count = 0 ∧
      search_range a b pat { ed with lines := L } =
        ((search_range a b pat ed).1, { (search_range a b pat ed).2 with lines := L }) := by
    intro pat
    unfold search_range
    simp only [hr ed h0, hr { ed with lines := L } h0, forUp_empty _ _ _ _ hlo]
    exact ⟨trivial, h0, trivial⟩
  refine ⟨?_, ?_, ?_, ?_, ?_⟩
  · unfold parse_range
    simp [h0]
  · unfold cmd_list
    simp [h0]
  · unfold cmd_delete
    simp [h0]
  · unfold cmd_replace
    cases parse_between (spec.dropWhile isspace) '/' LINE_LEN with
    | none => exact ⟨rfl, h0, rfl⟩
    | some r1 =>
      obtain ⟨oldp, p1⟩ := r1
      simp only
      cases parse_between (p1.dropWhile isspace) '/' LINE_LEN with
      | none => exact ⟨rfl, h0, rfl⟩
      | some r2 =>
        obtain ⟨newp, p2⟩ := r2
        simp only [hr ed h0, hr { ed with lines := L } h0, forUp_empty _ _ _ _ hlo]
        exact ⟨trivial, h0, trivial⟩
  · unfold cmd_search
    split
    · cases parse_between ('/' :: _) '/' LINE_LEN with
      | none => exact ⟨rfl, h0, rfl⟩
      | some r1 => exact hsr r1.1
    · exact hsr _

/-- C18 on the empty store with the bounds (1, 0) of the empty range token. -/
theorem empty_store_noop_witness :
    cmd_list 1 0 (mkStore []) = ([Out.text "(empty)"], mkStore []) ∧
    cmd_delete 1 0 (mkStore []) = mkStore [] ∧
    (cmd_replace 1 0 "/a//b/".toList (mkStore [])).1 = [Out.replaced 0] ∧
    (cmd_search 1 0 "/a/".toList (mkStore [])).1 = [Out.matches 0] ∧
    (cmd_search 1 0 "/a/".toList (mkStore [])).2.line_count = 0 :=
  ⟨(empty_store_noop (mkStore []) 1 0 "/a/".toList (fun _ => none) rfl).2.1,
    (empty_store_noop (mkStore []) 1 0 "/a/".toList (fun _ => none) rfl).2.2.1,
    by decide, by decide,
    (empty_store_noop (mkStore []) 1 0 "/a/".toList (fun _ => none) rfl).2.2.2.2.2.1⟩

/-! ## Search from the command loop (C19) -/

theorem forUpN_succ_last {σ : Type} (body : Int → σ → σ) (k : Nat) (i : Int) (s : σ) :
    forUpN body (k + 1) i s = body (i + k) (forUpN body k i s) := by
  induction k generalizing i s with
  | zero => simp [forUpN]
  | succ k ih =>
    rw [forUpN, ih (i + 1) (body i s)]
    conv_rhs => rw [forUpN]
    congr 1
    push_cast
    omega

theorem search_body_hits (ed : Ed) (pat : Line) (i : Int) (st : List Out × Int)
    (hi : i ≥ 1 ∧ i ≤ ed.line_count) :
    (search_body ed pat i st).2 = st.2 + (if slotHit pat (ed.lines (i - 1)) = true then 1 else 0) := by
  unfold search_body slotHit
  rw [if_pos hi]
  cases ed.lines (i - 1) with
  | none => simp
  | some s =>
    by_cases hh : strcasestr_pos s pat ≥ 0
    · simp [hh]
    · simp [hh]

/-- The hit counter after the first `k` lines. -/
theorem search_loop_hits (ed : Ed) (pat : Line) (k : Nat) (hk : (k : Int) ≤ ed.line_count) :
    (forUpN (search_body ed pat) k 1 ([], 0)).2 =
      (((List.range k).filter (fun j : Nat => slotHit pat (ed.lines (j : Int)))).length : Int) := by
  induction k with
  | zero => rfl
  | succ k ih =>
    rw [forUpN_succ_last, List.range_succ, List.filter_append, List.length_append]
    have ih1 := ih (by push_cast at hk; omega)
    rw [search_body_hits ed pat _ _ (by push_cast at hk; omega), ih1]
    have hidx : (1 : Int) + (k : Int) - 1 = (k : Int) := by omega
    rw [hidx]
    by_cases hs : slotHit pat (ed.lines (k : Int)) = true
    · simp [hs]
    · simp [hs]

theorem content_filter_length (ed : Ed) (f : Option Line → Bool) :
    ((content ed).filter f).length =
      ((List.range ed.line_count.toNat).filter (fun j : Nat => f (ed.lines (j : Int)))).length := by
  unfold content
  rw [List.filter_map, List.length_map]
  rfl

/-- A search over the whole store counts the lines that contain the pattern. -/
theorem search_range_all (ed : Ed) (pat : Line) (h0 : 0 ≤ ed.line_count) :
    (search_range 1 ed.line_count pat ed).1.getLast? =
      some (Out.matches (((content ed).filter (slotHit pat)).length : Int)) := by
  have hr : to_range_defaults ed 1 ed.line_count = (1, ed.line_count) := by
    unfold to_range_defaults
    simp only
    split_ifs <;> first | rfl | (exfalso; omega)
  unfold search_range
  simp only [hr, List.getLast?_append, List.getLast?_singleton]
  unfold forUp
  have hk : (ed.line_count + 1 - 1).toNat = ed.line_count.toNat := by omega
  rw [hk, search_loop_hits ed pat _ (by omega), content_filter_length]
  rfl

/-- C19, counterexample.  On the store foo, bar the command `S 1,1 foo`
reports 0 matches and `S 1,1 /foo/` reports 1; on the store x, `1,1 foo` the
command `S 1,1 foo` reports line 2 and 1 match.  Without slashes the whole
remainder, range token included, is the pattern, and the whole store is
searched. -/
theorem search_without_slashes_differs :
    (main_case_S "1,1 foo".toList (mkStore ["foo".toList, "bar".toList])).1 = [Out.matches 0] ∧
    (main_case_S "1,1 /foo/".toList (mkStore ["foo".toList, "bar".toList])).1 =
      [Out.numbered 0 "foo".toList, Out.matches 1] ∧
    (main_case_S "1,1 foo".toList (mkStore ["x".toList, "1,1 foo".toList])).1 =
      [Out.numbered 1 "1,1 foo".toList, Out.matches 1] := by
  decide

/-- C19, amended.  For the slash-less form `S text`, where the text after the
command letter holds no slash, the dispatcher takes that whole text (a range
token in it included, at most 255 characters) as the pattern and searches all
lines of the store: the reported hit count is the number of lines of the whole
store that contain it, case ignored. -/
theorem search_without_slashes (ed : Ed) (p : Line) (hp : '/' ∉ p) (h0 : 0 ≤ ed.line_count) :
    main_case_S p ed = search_range 1 ed.line_count ((p.dropWhile isspace).take (LINE_LEN - 1)) ed ∧
    (main_case_S p ed).1.getLast? =
      some (Out.matches
        (((content ed).filter (slotHit ((p.dropWhile isspace).take (LINE_LEN - 1)))).length : Int)) := by
  have hdw : (p.take 511).dropWhile (fun c => c ≠ '/') = [] := by
    rw [List.dropWhile_eq_nil_iff]
    intro c hc
    have hcp : c ∈ p := List.mem_of_mem_take hc
    simp only [decide_eq_true_eq]
    rintro rfl
    exact hp hcp
  have hmain : main_case_S p ed =
      search_range 1 ed.line_count ((p.dropWhile isspace).take (LINE_LEN - 1)) ed := by
    unfold main_case_S
    simp only [hdw]
    unfold cmd_search
    split
    · rename_i t heq
      exfalso
      have hmem : '/' ∈ p.dropWhile isspace := by rw [heq]; simp
      exact hp ((List.dropWhile_sublist _).subset hmem)
    · rfl
  refine ⟨hmain, ?_⟩
  rw [hmain]
  exact search_range_all ed _ h0

/-- C19, amended, on the store x, `1,1 foo`: `S 1,1 foo` reports 1 match. -/
theorem search_without_slashes_witness :
    (main_case_S "1,1 foo".toList (mkStore ["x".toList, "1,1 foo".toList])).1.getLast? =
      some (Out.matches 1) :=
  ((search_without_slashes (mkStore ["x".toList, "1,1 foo".toList]) "1,1 foo".toList
    (by decide) (by decide)).2).trans (by decide)

/-! ## Loading and writing files (C12, C16) -/

theorem typed_append (ls : List Line) (l : Line) : typed (ls ++ [l]) = typed ls ++ (l ++ ['\n']) := by
  induction ls with
  | nil => simp [typed]
  | cons x xs ih => simp [typed, ih]

/-- The text written by the loop of `write_file` after `k` lines. -/
theorem write_loop_text (ed : Ed) (k : Nat) :
    forUpN (fun i out => out ++ ((ed.lines i).getD [] ++ ['\n'])) k 0 [] =
      typed ((List.range k).map (fun j : Nat => (ed.lines (j : Int)).getD [])) := by
  induction k with
  | zero => rfl
  | succ k ih =>
    rw [forUpN_succ_last, ih, List.range_succ, List.map_append, List.map_singleton, typed_append]
    simp

/-- `write_file` writes every line of the store followed by a newline. -/
theorem write_file_text (name : Line) (ed : Ed) :
    (write_file name true ed).2.1 = typed ((content ed).map (fun o => o.getD [])) ∧
    (write_file name true ed).1 = 1 := by
  unfold write_file
  simp only [Bool.true_eq_false, if_false, and_true]
  unfold forUp content
  rw [Int.sub_zero, write_loop_text, List.map_map]
  rfl

/-- Storing a line in slot `line_count` and counting it appends it to the
buffer. -/
theorem append_slot_content (ed : Ed) (l : Line) (h0 : 0 ≤ ed.line_count) :
    content { ed with lines := setSlot ed.lines ed.line_count (some l)
                      line_count := ed.line_count + 1 } = content ed ++ [some l] := by
  refine (content_eq_iff _ _).2 ⟨?_, ?_⟩
  · show _ = (ed.line_count + 1).toNat
    rw [List.length_append, content_length, List.length_singleton]
    omega
  · intro k hk
    change k < (ed.line_count + 1).toNat at hk
    show _ = some (setSlot ed.lines ed.line_count (some l) k)
    rw [setSlot_apply]
    by_cases hkn : (k : Int) = ed.line_count
    · rw [if_pos hkn, List.getElem?_append_right (by rw [content_length]; omega), content_length]
      have : k - ed.line_count.toNat = 0 := by omega
      rw [this]
      rfl
    · rw [if_neg hkn, List.getElem?_append_left (by rw [content_length]; omega),
        content_getElem? _ _ (by omega)]

/-- The read loop of `load_file` on newline-ended lines that each fit one
`fgets`: it appends them until the file ends (result 1) or the count reaches
`MAX_LINES` (result 0). -/
theorem load_loop_spec (ls : List Line)
    (hls : ∀ l ∈ ls, l.length + 1 < LINE_LEN ∧ '\n' ∉ l ∧ l.getLast? ≠ some '\r')
    (fuel : Nat) (ed : Ed) (hf : (typed ls).length < fuel)
    (h0 : 0 ≤ ed.line_count) (hcap : ed.line_count < MAX_LINES) :
    ∃ ed1,
      load_loop fuel (typed ls) ed =
        some (if ed.line_count + ls.length < MAX_LINES then 1 else 0, ed1) ∧
      content ed1 = content ed ++ (ls.take (MAX_LINES - ed.line_count).toNat).map some ∧
      ed1.line_count = ed.line_count + (min ls.length (MAX_LINES - ed.line_count).toNat : Nat) ∧
      ed1.current_file = ed.current_file ∧ ed1.last_a = ed.last_a ∧ ed1.last_b = ed.last_b := by
  induction ls generalizing fuel ed with
  | nil =>
    obtain ⟨fuel, rfl⟩ : ∃ m, fuel = m + 1 := ⟨fuel - 1, by omega⟩
    refine ⟨ed, ?_, by simp, by simp, rfl, rfl, rfl⟩
    simp only [typed, load_loop, fgets, if_true, List.length_nil, Nat.cast_zero, add_zero]
    rw [if_pos hcap]
  | cons l ls ih =>
    obtain ⟨fuel, rfl⟩ : ∃ m, fuel = m + 1 := ⟨fuel - 1, by omega⟩
    obtain ⟨hlen, hnl, hcr⟩ := hls l (by simp)
    have hls1 : ∀ x ∈ ls, x.length + 1 < LINE_LEN ∧ '\n' ∉ x ∧ x.getLast? ≠ some '\r' :=
      fun x hx => hls x (by simp [hx])
    have hin : typed (l :: ls) = l ++ '\n' :: typed ls := rfl
    rw [hin] at hf ⊢
    rw [load_loop, fgets_line l _ hnl hlen]
    simp only [chomp_line l hcr]
    have hstep := append_slot_content ed l h0
    by_cases hfull : ed.line_count + 1 ≥ MAX_LINES
    · rw [if_pos hfull]
      have hm : (MAX_LINES - ed.line_count).toNat = 1 := by omega
      refine ⟨{ ed with lines := setSlot ed.lines ed.line_count (some l)
                        line_count := ed.line_count + 1 }, ?_, ?_, ?_, rfl, rfl, rfl⟩
      · rw [if_neg (by simp only [List.length_cons]; push_cast; omega)]
      · rw [hstep, hm]
        simp
      · show ed.line_count + 1 = _
        rw [hm]
        simp only [List.length_cons]
        have : min (ls.length + 1) 1 = 1 := by omega
        rw [this]
        rfl
    · rw [if_neg hfull]
      have hlen2 : (typed ls).length < fuel := by
        simp only [List.length_append, List.length_cons] at hf
        omega
      obtain ⟨ed1, e1, e2, e3, e4, e5, e6⟩ := ih hls1 fuel
        { ed with lines := setSlot ed.lines ed.line_count (some l)
                  line_count := ed.line_count + 1 }
        hlen2 (by show 0 ≤ ed.line_count + 1; omega) (by show ed.line_count + 1 < MAX_LINES; omega)
      change load_loop fuel (typed ls) _ =
        some (if ed.line_count + 1 + (ls.length : Int) < MAX_LINES then 1 else 0, ed1) at e1
      change content ed1 = _ ++ (ls.take (MAX_LINES - (ed.line_count + 1)).toNat).map some at e2
      change ed1.line_count = ed.line_count + 1 +
        (min ls.length (MAX_LINES - (ed.line_count + 1)).toNat : Nat) at e3
      obtain ⟨m, hm⟩ : ∃ m, (MAX_LINES - ed.line_count).toNat = m + 1 :=
        ⟨(MAX_LINES - ed.line_count).toNat - 1, by omega⟩
      have hm2 : (MAX_LINES - (ed.line_count + 1)).toNat = m := by omega
      refine ⟨ed1, ?_, ?_, ?_, e4, e5, e6⟩
      · rw [e1]
        simp only [List.length_cons]
        push_cast
        have hiff : (ed.line_count + 1 + (ls.length : Int) < MAX_LINES) ↔
            (ed.line_count + ((ls.length : Int) + 1) < MAX_LINES) := by
          constructor <;> intro h <;> omega
        simp only [hiff]
      · rw [e2, hstep, hm, hm2, List.take_succ_cons, List.map_cons, List.append_assoc]
        rfl
      · rw [e3, hm, hm2]
        simp only [List.length_cons]
        have : min (ls.length + 1) (m + 1) = min ls.length m + 1 := by omega
        rw [this]
        push_cast
        omega

/-- `load_file` on a file of newline-ended lines that each fit one `fgets`. -/
theorem load_file_spec (ed : Ed) (name : Line) (ls : List Line)
    (hls : ∀ l ∈ ls, l.length + 1 < LINE_LEN ∧ '\n' ∉ l ∧ l.getLast? ≠ some '\r') :
    ∃ ed1,
      load_file name (some (typed ls)) ed = some (if ls.length < 1200 then 1 else 0, ed1) ∧
      content ed1 = (ls.take 1200).map some ∧
      ed1.line_count = (min ls.length 1200 : Nat) ∧
      (ls.length < 1200 →
        ed1.current_file = name.take 127 ∧ ed1.last_a = 1 ∧ ed1.last_b = (ls.length : Int)) := by
  obtain ⟨ed1, e1, e2, e3, -, -, -⟩ := load_loop_spec ls hls ((typed ls).length + 1)
    { forUp free_line 0 ed.line_count ed with line_count := 0 } (by omega)
    (le_refl 0) (by show (0 : Int) < MAX_LINES; decide)
  change load_loop _ _ _ = some (if (0 : Int) + (ls.length : Int) < MAX_LINES then 1 else 0, ed1) at e1
  change content ed1 = content { forUp free_line 0 ed.line_count ed with line_count := 0 } ++
    (ls.take (MAX_LINES - 0).toNat).map some at e2
  change ed1.line_count = 0 + (min ls.length (MAX_LINES - 0).toNat : Nat) at e3
  have hM : (MAX_LINES - 0).toNat = 1200 := by decide
  have hc0 : content { forUp free_line 0 ed.line_count ed with line_count := 0 } = [] := rfl
  rw [hM] at e2 e3
  rw [hc0, List.nil_append] at e2
  rw [Int.zero_add] at e3
  by_cases hlt : ls.length < 1200
  · have hlt2 : (0 : Int) + (ls.length : Int) < MAX_LINES := by
      unfold MAX_LINES; omega
    rw [if_pos hlt2] at e1
    refine ⟨{ ed1 with current_file := name.take 127, last_a := 1, last_b := ed1.line_count },
      ?_, e2, e3, fun _ => ⟨rfl, rfl, ?_⟩⟩
    · unfold load_file
      simp only [e1]
      rw [if_pos hlt]
      rfl
    · show ed1.line_count = _
      rw [e3]
      congr 1
      omega
  · have hlt2 : ¬ ((0 : Int) + (ls.length : Int) < MAX_LINES) := by
      unfold MAX_LINES; omega
    rw [if_neg hlt2] at e1
    refine ⟨ed1, ?_, e2, e3, fun h => absurd h hlt⟩
    unfold load_file
    simp only [e1]
    rw [if_neg hlt]
    rfl

theorem fgetsAux_all (l : Line) (hn : '\n' ∉ l) (k : Nat) (hk : l.length ≤ k) :
    fgetsAux k l = (l, []) := by
  induction l generalizing k with
  | nil => cases k <;> rfl
  | cons c l ih =>
    obtain ⟨k, rfl⟩ : ∃ m, k = m + 1 := ⟨k - 1, by simp at hk; omega⟩
    have hc : c ≠ '\n' := fun h => hn (by simp [h])
    have hl : '\n' ∉ l := fun h => hn (by simp [h])
    rw [fgetsAux, if_neg hc, ih hl k (by simp at hk; omega)]

/-- The end of a file after its last newline, when not empty and of at most
`LINE_LEN - 1` characters, is read by one `fgets`. -/
theorem fgets_all (l : Line) (hne : l ≠ []) (hn : '\n' ∉ l) (hlen : l.length < LINE_LEN) :
    fgets LINE_LEN l = some (l, []) := by
  unfold fgets
  rw [if_neg hne, fgetsAux_all l hn _ (by unfold LINE_LEN at *; omega)]

theorem chomp_crlf (l : Line) : chomp (l ++ ['\r', '\n']) = l := by
  have h : l ++ ['\r', '\n'] = (l ++ ['\r']) ++ ['\n'] := by simp
  unfold chomp
  rw [h]
  simp

theorem chomp_bare (l : Line) (hn : '\n' ∉ l) (hr : l.getLast? ≠ some '\r') : chomp l = l := by
  have hnl : l.getLast? ≠ some '\n' := fun h => hn (List.mem_of_getLast?_eq_some h)
  unfold chomp
  simp [hr, hnl]

theorem chomp_cr (l : Line) (hr : l.getLast? ≠ some '\r') : chomp (l ++ ['\r']) = l := by
  unfold chomp
  simp [hr]

theorem chomp_crcr (l : Line) : chomp (l ++ ['\r', '\r']) = l := by
  have h : l ++ ['\r', '\r'] = (l ++ ['\r']) ++ ['\r'] := by simp
  unfold chomp
  rw [h]
  simp

/-- One iteration of the read loop of `load_file` that stores a chunk, joined
with what the loop does on the rest of the file. -/
theorem load_loop_cons (fuel : Nat) (inp raw rest : List Char) (ed : Ed) (tl : List Line)
    (hg : fgets LINE_LEN inp = some (raw, rest))
    (h0 : 0 ≤ ed.line_count) (hcap : ed.line_count < MAX_LINES)
    (hrest : ed.line_count + 1 < MAX_LINES → ∃ ed1,
      load_loop fuel rest { ed with lines := setSlot ed.lines ed.line_count (some (chomp raw))
                                    line_count := ed.line_count + 1 } =
        some (if ed.line_count + 1 + (tl.length : Int) < MAX_LINES then 1 else 0, ed1) ∧
      content ed1 = (content ed ++ [some (chomp raw)]) ++
        (tl.take (MAX_LINES - (ed.line_count + 1)).toNat).map some ∧
      ed1.line_count = ed.line_count + 1 +
        (min tl.length (MAX_LINES - (ed.line_count + 1)).toNat : Nat) ∧
      ed1.current_file = ed.current_file ∧ ed1.last_a = ed.last_a ∧ ed1.last_b = ed.last_b) :
    ∃ ed1,
      load_loop (fuel + 1) inp ed =
        some (if ed.line_count + ((chomp raw :: tl).length : Nat) < MAX_LINES then 1 else 0, ed1) ∧
      content ed1 =
        content ed ++ ((chomp raw :: tl).take (MAX_LINES - ed.line_count).toNat).map some ∧
      ed1.line_count = ed.line_count +
        (min (chomp raw :: tl).length (MAX_LINES - ed.line_count).toNat : Nat) ∧
      ed1.current_file = ed.current_file ∧ ed1.last_a = ed.last_a ∧ ed1.last_b = ed.last_b := by
  rw [load_loop, hg]
  simp only
  have hstep := append_slot_content ed (chomp raw) h0
  by_cases hfull : ed.line_count + 1 ≥ MAX_LINES
  · rw [if_pos hfull]
    have hm : (MAX_LINES - ed.line_count).toNat = 1 := by omega
    refine ⟨{ ed with lines := setSlot ed.lines ed.line_count (some (chomp raw))
                      line_count := ed.line_count + 1 }, ?_, ?_, ?_, rfl, rfl, rfl⟩
    · rw [if_neg (by simp only [List.length_cons]; push_cast; omega)]
    · rw [hstep, hm]
      simp
    · show ed.line_count + 1 = _
      rw [hm]
      simp only [List.length_cons]
      have : min (tl.length + 1) 1 = 1 := by omega
      rw [this]
      rfl
  · rw [if_neg hfull]
    obtain ⟨ed1, e1, e2, e3, e4, e5, e6⟩ := hrest (by omega)
    obtain ⟨m, hm⟩ : ∃ m, (MAX_LINES - ed.line_count).toNat = m + 1 :=
      ⟨(MAX_LINES - ed.line_count).toNat - 1, by omega⟩
    have hm2 : (MAX_LINES - (ed.line_count + 1)).toNat = m := by omega
    refine ⟨ed1, ?_, ?_, ?_, e4, e5, e6⟩
    · rw [e1]
      simp only [List.length_cons]
      push_cast
      have hiff : (ed.line_count + 1 + (tl.length : Int) < MAX_LINES) ↔
          (ed.line_count + ((tl.length : Int) + 1) < MAX_LINES) := by
        constructor <;> intro h <;> omega
      simp only [hiff]
    · rw [e2, hm, hm2, List.take_succ_cons, List.map_cons, List.append_assoc]
      rfl
    · rw [e3, hm, hm2]
      simp only [List.length_cons]
      have : min (tl.length + 1) (m + 1) = min tl.length m + 1 := by omega
      rw [this]
      push_cast
      omega

/-- The read loop of `load_file` on a file of newline-ended chunks, each read
by one `fgets`, and an end `last` without newline: it appends what `chomp`
leaves of each chunk until the file ends (result 1) or the count reaches
`MAX_LINES` (result 0). -/
theorem load_loop_chunks (ts : List Line) (last : Line)
    (hts : ∀ t ∈ ts, t.length + 1 < LINE_LEN ∧ '\n' ∉ t)
    (hl1 : last.length < LINE_LEN) (hl2 : '\n' ∉ last)
    (fuel : Nat) (ed : Ed) (hf : (typed ts ++ last).length < fuel)
    (h0 : 0 ≤ ed.line_count) (hcap : ed.line_count < MAX_LINES) :
    ∃ ed1,
      load_loop fuel (typed ts ++ last) ed =
        some (if ed.line_count +
            ((ts.map (fun t => chomp (t ++ ['\n'])) ++
              (if last = [] then [] else [chomp last])).length : Nat) < MAX_LINES
          then 1 else 0, ed1) ∧
      content ed1 = content ed ++
        ((ts.map (fun t => chomp (t ++ ['\n'])) ++
          (if last = [] then [] else [chomp last])).take (MAX_LINES - ed.line_count).toNat).map some ∧
      ed1.line_count = ed.line_count +
        (min (ts.map (fun t => chomp (t ++ ['\n'])) ++
          (if last = [] then [] else [chomp last])).length (MAX_LINES - ed.line_count).toNat : Nat) ∧
      ed1.current_file = ed.current_file ∧ ed1.last_a = ed.last_a ∧ ed1.last_b = ed.last_b := by
  induction ts generalizing fuel ed with
  | nil =>
    obtain ⟨fuel, rfl⟩ : ∃ m, fuel = m + 1 := ⟨fuel - 1, by omega⟩
    by_cases hl : last = []
    · subst hl
      refine ⟨ed, ?_, by simp, by simp, rfl, rfl, rfl⟩
      simp only [typed, load_loop, fgets, if_true, List.length_nil, Nat.cast_zero, add_zero,
        List.map_nil, List.append_nil]
      rw [if_pos hcap]
    · simp only [typed, List.nil_append, List.map_nil, if_neg hl] at hf ⊢
      have hpos : 0 < last.length := List.length_pos.2 hl
      obtain ⟨fuel, rfl⟩ : ∃ m, fuel = m + 1 := ⟨fuel - 1, by omega⟩
      refine load_loop_cons (fuel + 1) last last [] ed [] (fgets_all last hl hl2 hl1) h0 hcap
        (fun hlt => ⟨{ ed with lines := setSlot ed.lines ed.line_count (some (chomp last))
                               line_count := ed.line_count + 1 }, ?_, ?_, ?_, rfl, rfl, rfl⟩)
      · simp only [load_loop, fgets, if_true, List.length_nil, Nat.cast_zero, add_zero]
        rw [if_pos hlt]
      · rw [append_slot_content ed (chomp last) h0]
        simp
      · show ed.line_count + 1 = _
        simp
  | cons t ts ih =>
    obtain ⟨fuel, rfl⟩ : ∃ m, fuel = m + 1 := ⟨fuel - 1, by omega⟩
    obtain ⟨hlen, hnl⟩ := hts t (by simp)
    have hts1 : ∀ x ∈ ts, x.length + 1 < LINE_LEN ∧ '\n' ∉ x := fun x hx => hts x (by simp [hx])
    have hin : typed (t :: ts) ++ last = t ++ '\n' :: (typed ts ++ last) := by
      simp [typed]
    rw [hin] at hf ⊢
    have hlen2 : (typed ts ++ last).length < fuel := by
      simp only [List.length_append, List.length_cons] at hf ⊢
      omega
    simp only [List.map_cons, List.cons_append]
    exact load_loop_cons fuel _ (t ++ ['\n']) (typed ts ++ last) ed _
      (fgets_line t _ hnl hlen) h0 hcap
      (fun hlt => by
        obtain ⟨ed1, e1, e2, e3, e4, e5, e6⟩ := ih hts1 fuel
          { ed with lines := setSlot ed.lines ed.line_count (some (chomp (t ++ ['\n'])))
                    line_count := ed.line_count + 1 }
          hlen2 (by show 0 ≤ ed.line_count + 1; omega)
          (by show ed.line_count + 1 < MAX_LINES; omega)
        rw [append_slot_content ed _ h0] at e2
        exact ⟨ed1, e1, e2, e3, e4, e5, e6⟩)

/-- `load_file` on a file of newline-ended chunks, each read by one `fgets`,
and an end `last` without newline. -/
theorem load_file_chunks (ed : Ed) (name : Line) (ts : List Line) (last : Line) (ls : List Line)
    (hts : ∀ t ∈ ts, t.length + 1 < LINE_LEN ∧ '\n' ∉ t)
    (hl1 : last.length < LINE_LEN) (hl2 : '\n' ∉ last)
    (hls : ls = ts.map (fun t => chomp (t ++ ['\n'])) ++ (if last = [] then [] else [chomp last])) :
    ∃ ed1,
      load_file name (some (typed ts ++ last)) ed = some (if ls.length < 1200 then 1 else 0, ed1) ∧
      content ed1 = (ls.take 1200).map some ∧
      ed1.line_count = (min ls.length 1200 : Nat) ∧
      (ls.length < 1200 →
        ed1.current_file = name.take 127 ∧ ed1.last_a = 1 ∧ ed1.last_b = (ls.length : Int)) := by
  obtain ⟨ed1, e1, e2, e3, -, -, -⟩ := load_loop_chunks ts last hts hl1 hl2
    ((typed ts ++ last).length + 1)
    { forUp free_line 0 ed.line_count ed with line_count := 0 } (by omega)
    (le_refl 0) (by show (0 : Int) < MAX_LINES; decide)
  rw [← hls] at e1 e2 e3
  change load_loop _ _ _ = some (if (0 : Int) + (ls.length : Int) < MAX_LINES then 1 else 0, ed1) at e1
  change content ed1 = content { forUp free_line 0 ed.line_count ed with line_count := 0 } ++
    (ls.take (MAX_LINES - 0).toNat).map some at e2
  change ed1.line_count = 0 + (min ls.length (MAX_LINES - 0).toNat : Nat) at e3
  have hM : (MAX_LINES - 0).toNat = 1200 := by decide
  have hc0 : content { forUp free_line 0 ed.line_count ed with line_count := 0 } = [] := rfl
  rw [hM] at e2 e3
  rw [hc0, List.nil_append] at e2
  rw [Int.zero_add] at e3
  by_cases hlt : ls.length < 1200
  · have hlt2 : (0 : Int) + (ls.length : Int) < MAX_LINES := by
      unfold MAX_LINES; omega
    rw [if_pos hlt2] at e1
    refine ⟨{ ed1 with current_file := name.take 127, last_a := 1, last_b := ed1.line_count },
      ?_, e2, e3, fun _ => ⟨rfl, rfl, ?_⟩⟩
    · unfold load_file
      simp only [e1]
      rw [if_pos hlt]
      rfl
    · show ed1.line_count = _
      rw [e3]
      congr 1
      omega
  · have hlt2 : ¬ ((0 : Int) + (ls.length : Int) < MAX_LINES) := by
      unfold MAX_LINES; omega
    rw [if_neg hlt2] at e1
    refine ⟨ed1, ?_, e2, e3, fun h => absurd h hlt⟩
    unfold load_file
    simp only [e1]
    rw [if_neg hlt]
    rfl

/-- A source given by texts and terminators is a file of newline-ended chunks
and an end without newline. -/
theorem sourceText_typed (body : List (Line × Line)) (last : Line × Line)
    (hbody : ∀ r ∈ body, r.2 = ['\n'] ∨ r.2 = ['\r', '\n']) :
    sourceText body last = typed (body.map (fun r => r.1 ++ r.2.dropLast)) ++ (last.1 ++ last.2) := by
  induction body with
  | nil => rfl
  | cons r body ih =>
    have hr := hbody r (by simp)
    rw [sourceText, ih (fun x hx => hbody x (by simp [hx]))]
    rcases hr with hr | hr <;> simp [typed, hr]

/-- `load_file` on a source given by texts and terminators stores the texts. -/
theorem load_file_source (ed : Ed) (name : Line) (body : List (Line × Line)) (last : Line × Line)
    (hbody : ∀ r ∈ body, r.1.length + r.2.length < LINE_LEN ∧ '\n' ∉ r.1 ∧
      (r.2 = ['\n'] ∧ r.1.getLast? ≠ some '\r' ∨ r.2 = ['\r', '\n']))
    (hlast : last.1.length + last.2.length < LINE_LEN ∧ '\n' ∉ last.1 ∧
      (last.2 = [] ∧ last.1.getLast? ≠ some '\r' ∨
        last.2 = ['\r'] ∧ last.1.getLast? ≠ some '\r' ∨ last.2 = ['\r', '\r'])) :
    ∃ ed1,
      load_file name (some (sourceText body last)) ed =
        some (if (sourceLines body last).length < 1200 then 1 else 0, ed1) ∧
      content ed1 = ((sourceLines body last).take 1200).map some ∧
      ed1.line_count = (min (sourceLines body last).length 1200 : Nat) ∧
      ((sourceLines body last).length < 1200 →
        ed1.current_file = name.take 127 ∧ ed1.last_a = 1 ∧
        ed1.last_b = ((sourceLines body last).length : Int)) := by
  rw [sourceText_typed body last (fun r hr => by
    rcases (hbody r hr).2.2 with h | h
    · exact Or.inl h.1
    · exact Or.inr h)]
  apply load_file_chunks
  · intro t ht
    obtain ⟨r, hr, rfl⟩ := List.mem_map.1 ht
    obtain ⟨h1, h2, h3⟩ := hbody r hr
    rcases h3 with ⟨h3, -⟩ | h3 <;> rw [h3] at h1 ⊢
    · simp only [List.dropLast_single, List.append_nil]
      exact ⟨by simpa using h1, h2⟩
    · refine ⟨by simp at h1 ⊢; omega, ?_⟩
      simp only [List.dropLast_cons₂, List.dropLast_single, List.mem_append, List.mem_singleton,
        not_or]
      exact ⟨h2, by decide⟩
  · obtain ⟨h1, -, -⟩ := hlast
    rw [List.length_append]
    exact h1
  · obtain ⟨-, h2, h3⟩ := hlast
    rcases h3 with ⟨h3, -⟩ | ⟨h3, -⟩ | h3 <;> rw [h3] <;> simp [h2]
  · unfold sourceLines
    congr 1
    · rw [List.map_map]
      apply List.map_congr_left
      intro r hr
      obtain ⟨-, -, h3⟩ := hbody r hr
      rcases h3 with ⟨h3, h4⟩ | h3
      · simp only [Function.comp, h3, List.dropLast_single, List.append_nil]
        exact (chomp_line r.1 h4).symm
      · simp only [Function.comp, h3, List.dropLast_cons₂, List.dropLast_single]
        rw [List.append_assoc]
        exact (chomp_crlf r.1).symm
    · obtain ⟨-, h2, h3⟩ := hlast
      by_cases he : last.1 ++ last.2 = []
      · rw [if_pos he, if_pos he]
      · rw [if_neg he, if_neg he]
        rcases h3 with ⟨h3, h4⟩ | ⟨h3, h4⟩ | h3 <;> rw [h3]
        · rw [List.append_nil, chomp_bare _ h2 h4]
        · rw [chomp_cr _ h4]
        · rw [chomp_crcr]

theorem content_mkStore (ls : List Line) : content (mkStore ls) = ls.map some := by
  refine (content_eq_iff _ _).2 ⟨?_, ?_⟩
  · show _ = ((ls.length : Int)).toNat
    rw [List.length_map]
    omega
  · intro k hk
    change k < ((ls.length : Int)).toNat at hk
    show _ = some (if (0 : Int) ≤ (k : Int) then ls.get? ((k : Int)).toNat else none)
    rw [if_pos (by omega), List.getElem?_map]
    have hk2 : ((k : Int)).toNat = k := by omega
    rw [hk2, List.get?_eq_getElem?, List.getElem?_eq_getElem (by omega)]
    rfl

set_option maxRecDepth 100000 in
/-- C16, counterexample.  A source of one line of 255 characters is loaded as
two lines, the 255 characters and an empty line.  A source of exactly 1200
lines makes `load_file` return 0, although all of its lines fit the store. -/
theorem load_file_boundaries :
    (load_file ['f'] (some (typed [List.replicate 255 'a'])) (mkStore [])).map
        (fun r => (r.1, content r.2, r.2.line_count)) =
      some (1, [some (List.replicate 255 'a'), some []], 2) ∧
    (load_file ['f'] (some (typed (List.replicate 1200 ['a']))) (mkStore [])).map
        (fun r => (r.1, r.2.line_count)) = some (0, 1200) := by
  refine ⟨by decide, ?_⟩
  obtain ⟨ed1, e1, -, e3, -⟩ := load_file_spec (mkStore []) ['f'] (List.replicate 1200 ['a'])
    (fun l hl => by rw [List.eq_of_mem_replicate hl]; decide)
  rw [List.length_replicate] at e1 e3
  rw [e1, Option.map_some', e3]
  rfl

/-- C16, amended.  For a text source without NUL byte made of `n` lines, each a
text without newline followed by a newline or by CR LF (a text before a lone
newline does not end in a carriage return), where the last line may instead
end the file without newline, bare or followed by one carriage return (its
text then not ending in a carriage return) or by two, and every line has at
most 255 characters counting its terminator: `load_file` returns and leaves
the store holding the texts of the first `min(n, 1200)` lines in order; for
`n < 1200` it returns 1, records the first 127 characters of the file name and
sets the last-used range to `(1, n)`; for `n > 1200` it returns 0. -/
theorem load_file_correct (ed : Ed) (name : Line) (body : List (Line × Line)) (last : Line × Line)
    (hbody : ∀ r ∈ body, r.1.length + r.2.length < LINE_LEN ∧ '\n' ∉ r.1 ∧ Char.ofNat 0 ∉ r.1 ∧
      (r.2 = ['\n'] ∧ r.1.getLast? ≠ some '\r' ∨ r.2 = ['\r', '\n']))
    (hlast : last.1.length + last.2.length < LINE_LEN ∧ '\n' ∉ last.1 ∧ Char.ofNat 0 ∉ last.1 ∧
      (last.2 = [] ∧ last.1.getLast? ≠ some '\r' ∨
        last.2 = ['\r'] ∧ last.1.getLast? ≠ some '\r' ∨ last.2 = ['\r', '\r'])) :
    ∃ r ed1,
      load_file name (some (sourceText body last)) ed = some (r, ed1) ∧
      content ed1 = ((sourceLines body last).take 1200).map some ∧
      ed1.line_count = (min (sourceLines body last).length 1200 : Nat) ∧
      ((sourceLines body last).length < 1200 →
        r = 1 ∧ ed1.current_file = name.take 127 ∧ ed1.last_a = 1 ∧
        ed1.last_b = ((sourceLines body last).length : Int)) ∧
      (1200 < (sourceLines body last).length → r = 0) := by
  obtain ⟨ed1, e1, e2, e3, e4⟩ := load_file_source ed name body last
    (fun r hr => ⟨(hbody r hr).1, (hbody r hr).2.1, (hbody r hr).2.2.2⟩)
    ⟨hlast.1, hlast.2.1, hlast.2.2.2⟩
  refine ⟨_, ed1, e1, e2, e3, fun h => ⟨if_pos h, e4 h⟩, fun h => if_neg (by omega)⟩

/-- C16, amended, on a source of the three lines a, b, c: the first ended by a
newline, the second by CR LF, the third by the end of the file. -/
theorem load_file_correct_witness :
    (load_file "f.txt".toList (some "a\nb\r\nc".toList) (mkStore [['x']])).map
        (fun r => (r.1, content r.2, r.2.line_count, r.2.current_file, r.2.last_a, r.2.last_b)) =
      some (1, [some ['a'], some ['b'], some ['c']], 3, "f.txt".toList, 1, 3) := by
  obtain ⟨r, ed1, e1, e2, e3, e4, -⟩ := load_file_correct (mkStore [['x']]) "f.txt".toList
    [(['a'], ['\n']), (['b'], ['\r', '\n'])] (['c'], []) (by decide) (by decide)
  obtain ⟨h1, h2, h3, h4⟩ := e4 (by decide)
  have ht : sourceText [(['a'], ['\n']), (['b'], ['\r', '\n'])] (['c'], []) =
      "a\nb\r\nc".toList := by decide
  rw [ht] at e1
  rw [e1, Option.map_some', e2, e3, h1, h2, h3, h4]
  rfl

set_option maxRecDepth 100000 in
/-- C12, counterexample.  The store holding one line of 255 characters is
written as 256 characters; loading them back gives two lines, the 255
characters and an empty line.  For a store of 1200 lines, loading the written
text back returns 0. -/
theorem write_then_load_differs :
    (load_file ['f'] (some (write_file ['f'] true (mkStore [List.replicate 255 'a'])).2.1)
        (write_file ['f'] true (mkStore [List.replicate 255 'a'])).2.2).map
        (fun r => (r.1, content r.2, r.2.line_count)) =
      some (1, [some (List.replicate 255 'a'), some []], 2) ∧
    (load_file ['f'] (some (write_file ['f'] true (mkStore (List.replicate 1200 ['a']))).2.1)
        (write_file ['f'] true (mkStore (List.replicate 1200 ['a']))).2.2).map
        (fun r => r.1) = some 0 := by
  refine ⟨by decide, ?_⟩
  have ht : (write_file ['f'] true (mkStore (List.replicate 1200 ['a']))).2.1 =
      typed (List.replicate 1200 ['a']) := by
    rw [(write_file_text ['f'] _).1, content_mkStore, List.map_map]
    have hid : ((fun o : Option Line => o.getD []) ∘ some) = id := rfl
    rw [hid, List.map_id]
  obtain ⟨ed1, e1, -, -, -⟩ := load_file_spec
    (write_file ['f'] true (mkStore (List.replicate 1200 ['a']))).2.2 ['f']
    (List.replicate 1200 ['a']) (fun l hl => by rw [List.eq_of_mem_replicate hl]; decide)
  rw [List.length_replicate] at e1
  rw [ht, e1, Option.map_some']
  rfl

/-- C12, amended.  For a store of fewer than 1200 lines, each present, of at
most 254 characters and without newline or carriage-return characters: writing
it with `write_file` and loading the written text back with `load_file`
succeeds and yields a store with the same count and the same lines in the
same order. -/
theorem write_then_load (ed ed2 : Ed) (name1 name2 : Line)
    (h0 : 0 ≤ ed.line_count) (hN : ed.line_count < MAX_LINES)
    (hl : ∀ o ∈ content ed, ∃ l, o = some l ∧ l.length + 1 < LINE_LEN ∧ '\n' ∉ l ∧ '\r' ∉ l) :
    (write_file name1 true ed).1 = 1 ∧
    ∃ ed3, load_file name2 (some (write_file name1 true ed).2.1) ed2 = some (1, ed3) ∧
      content ed3 = content ed ∧ ed3.line_count = ed.line_count := by
  obtain ⟨ht, hw⟩ := write_file_text name1 ed
  have hls : ∀ l ∈ (content ed).map (fun o => o.getD []),
      l.length + 1 < LINE_LEN ∧ '\n' ∉ l ∧ l.getLast? ≠ some '\r' := by
    intro l hmem
    obtain ⟨o, ho, rfl⟩ := List.mem_map.1 hmem
    obtain ⟨l, rfl, h1, h2, h3⟩ := hl o ho
    refine ⟨h1, h2, fun hlast => h3 ?_⟩
    exact List.mem_of_getLast?_eq_some hlast
  have hback : ((content ed).map (fun o => o.getD [])).map some = content ed := by
    rw [List.map_map]
    conv_rhs => rw [← List.map_id (content ed)]
    apply List.map_congr_left
    intro o ho
    obtain ⟨l, rfl, -⟩ := hl o ho
    rfl
  have hlen : ((content ed).map (fun o => o.getD [])).length = ed.line_count.toNat := by
    rw [List.length_map, content_length]
  have hlt : ed.line_count.toNat < 1200 := by unfold MAX_LINES at hN; omega
  obtain ⟨ed1, e1, e2, e3, -⟩ := load_file_spec ed2 name2 _ hls
  rw [hlen, if_pos hlt] at e1
  rw [List.take_of_length_le (by rw [hlen]; omega), hback] at e2
  rw [hlen] at e3
  refine ⟨hw, ed1, by rw [ht]; exact e1, e2, ?_⟩
  rw [e3]
  omega

/-- C12 on the store a, b, c: written and loaded back it is a, b, c again. -/
theorem write_then_load_witness :
    (load_file ['f'] (some (write_file ['f'] true (mkStore [['a'], ['b'], ['c']])).2.1)
        (write_file ['f'] true (mkStore [['a'], ['b'], ['c']])).2.2).map
        (fun r => (r.1, content r.2, r.2.line_count)) =
      some (1, [some ['a'], some ['b'], some ['c']], 3) := by
  obtain ⟨-, ed3, e1, e2, e3⟩ := write_then_load (mkStore [['a'], ['b'], ['c']])
    (write_file ['f'] true (mkStore [['a'], ['b'], ['c']])).2.2 ['f'] ['f']
    (by decide) (by decide) (by decide)
  rw [e1, Option.map_some', e2, e3]
  rfl

/-! ## The store invariant (C17) -/

theorem mem_content_iff (ed : Ed) (o : Option Line) :
    o ∈ content ed ↔ ∃ i : Int, 0 ≤ i ∧ i < ed.line_count ∧ ed.lines i = o := by
  unfold content
  rw [List.mem_map]
  constructor
  · rintro ⟨k, hk, rfl⟩
    rw [List.mem_range] at hk
    exact ⟨(k : Int), by omega, by omega, rfl⟩
  · rintro ⟨i, h0, h1, rfl⟩
    refine ⟨i.toNat, by rw [List.mem_range]; omega, ?_⟩
    congr 1
    omega

/-- The invariant in terms of the buffer. -/
theorem storeInv_iff (ed : Ed) :
    StoreInv ed ↔ 0 ≤ ed.line_count ∧ ed.line_count ≤ MAX_LINES ∧
      ∀ l : Line, some l ∈ content ed → l.length ≤ 255 := by
  unfold StoreInv
  constructor
  · rintro ⟨h0, h1, h2⟩
    refine ⟨h0, h1, fun l hl => ?_⟩
    obtain ⟨i, hi0, hi1, hi2⟩ := (mem_content_iff ed _).1 hl
    exact h2 i l hi0 hi1 hi2
  · rintro ⟨h0, h1, h2⟩
    exact ⟨h0, h1, fun i l hi0 hi1 hi2 => h2 l ((mem_content_iff ed _).2 ⟨i, hi0, hi1, hi2⟩)⟩

theorem forUpN_invariant {σ : Type} (P : σ → Prop) (body : Int → σ → σ)
    (hbody : ∀ i s, P s → P (body i s)) (k : Nat) (i : Int) (s : σ) (hs : P s) :
    P (forUpN body k i s) := by
  induction k generalizing i s with
  | zero => exact hs
  | succ k ih => exact ih (i + 1) (body i s) (hbody i s hs)

theorem fgetsAux_length (k : Nat) (inp : List Char) : (fgetsAux k inp).1.length ≤ k := by
  induction k generalizing inp with
  | zero => simp [fgetsAux]
  | succ k ih =>
    cases inp with
    | nil => simp [fgetsAux]
    | cons c inp =>
      simp only [fgetsAux]
      split_ifs
      · simp
      · simp only [List.length_cons]
        have := ih inp
        omega

theorem chomp_length (s : Line) : (chomp s).length ≤ s.length := by
  have hd : ∀ t : Line, t.dropLast.length ≤ t.length := fun t => by simp
  unfold chomp
  simp only
  split_ifs <;> first | exact le_refl _ | exact hd _ | exact le_trans (hd _) (hd _)

/-- What `fgets` and `chomp` hand over has at most 255 characters. -/
theorem fgets_chomp_length (inp raw rest : List Char) (h : fgets LINE_LEN inp = some (raw, rest)) :
    (chomp raw).length ≤ 255 := by
  unfold fgets at h
  split_ifs at h
  simp only [Option.some.injEq] at h
  have h1 := fgetsAux_length (LINE_LEN - 1) inp
  rw [h] at h1
  have h2 := chomp_length raw
  have h3 : LINE_LEN - 1 = 255 := rfl
  simp only at h1
  omega

/-- The C string that `fgets` and `chomp` hand over has at most 255
characters. -/
theorem fgets_cstr_chomp_length (inp raw rest : List Char)
    (h : fgets LINE_LEN inp = some (raw, rest)) :
    (chomp (cstr raw)).length ≤ 255 := by
  unfold fgets at h
  split_ifs at h
  simp only [Option.some.injEq] at h
  have h1 := fgetsAux_length (LINE_LEN - 1) inp
  rw [h] at h1
  have h2 := chomp_length (cstr raw)
  have h4 := cstr_length raw
  have h3 : LINE_LEN - 1 = 255 := rfl
  simp only at h1
  omega

/-- `cmd_delete` either changes nothing or deletes a range inside the store. -/
theorem cmd_delete_cases (a b : Int) (ed : Ed) :
    cmd_delete a b ed = ed ∨
    ∃ a1 b1, 1 ≤ a1 ∧ a1 ≤ b1 ∧ b1 ≤ ed.line_count ∧ cmd_delete a b ed = cmd_delete a1 b1 ed := by
  by_cases hret : ed.line_count = 0 ∨
      (if (to_range_defaults ed a b).1 < 1 then 1 else (to_range_defaults ed a b).1) >
      (if (to_range_defaults ed a b).2 > ed.line_count then ed.line_count
        else (to_range_defaults ed a b).2)
  · left
    unfold cmd_delete
    simp only
    rw [if_pos hret]
  · right
    have h1 : 1 ≤ (if (to_range_defaults ed a b).1 < 1 then 1 else (to_range_defaults ed a b).1) := by
      split_ifs <;> omega
    have h2 : (if (to_range_defaults ed a b).2 > ed.line_count then ed.line_count
        else (to_range_defaults ed a b).2) ≤ ed.line_count := by
      split_ifs <;> omega
    refine ⟨_, _, h1, by omega, h2, ?_⟩
    generalize ha1 : (if (to_range_defaults ed a b).1 < 1 then 1 else (to_range_defaults ed a b).1) = a1
      at hret h1
    generalize hb1 : (if (to_range_defaults ed a b).2 > ed.line_count then ed.line_count
        else (to_range_defaults ed a b).2) = b1 at hret h2
    have hr : to_range_defaults ed a1 b1 = (a1, b1) := by
      unfold to_range_defaults
      simp only
      split_ifs <;> first | rfl | (exfalso; omega)
    have hlhs : cmd_delete a b ed =
        { close_gap (a1 - 1) (b1 - a1 + 1) (forUp free_line (a1 - 1) b1 ed) with
          last_a := a1
          last_b := if a1 ≤ (close_gap (a1 - 1) (b1 - a1 + 1) (forUp free_line (a1 - 1) b1 ed)).line_count
            then a1 else (close_gap (a1 - 1) (b1 - a1 + 1) (forUp free_line (a1 - 1) b1 ed)).line_count } := by
      unfold cmd_delete
      simp only [ha1, hb1]
      rw [if_neg hret]
    have hA : (if a1 < 1 then 1 else a1) = a1 := if_neg (by omega)
    have hB : (if b1 > ed.line_count then ed.line_count else b1) = b1 := if_neg (by omega)
    rw [hlhs]
    unfold cmd_delete
    simp only [hr, hA, hB]
    rw [if_neg hret]

theorem cmd_delete_inv (a b : Int) (ed : Ed) (h : StoreInv ed) : StoreInv (cmd_delete a b ed) := by
  rcases cmd_delete_cases a b ed with he | ⟨a1, b1, h1, h2, h3, he⟩
  · rw [he]; exact h
  · rw [he]
    obtain ⟨d1, d2, -, -⟩ := cmd_delete_spec ed a1 b1 h1 h2 h3
    rw [storeInv_iff] at h ⊢
    obtain ⟨i0, i1, i2⟩ := h
    refine ⟨by omega, by omega, fun l hl => ?_⟩
    rw [d1, List.mem_append] at hl
    rcases hl with hl | hl
    · exact i2 l (List.mem_of_mem_take hl)
    · exact i2 l (List.mem_of_mem_drop hl)

theorem cmd_insert_loop_inv (fuel : Nat) (pos : Int) (inp : List Char) (ed : Ed)
    (p : Int) (rest : List Char) (ed1 : Ed) (h : StoreInv ed) (h0 : 0 ≤ pos)
    (h1 : pos ≤ ed.line_count) (hrun : cmd_insert_loop fuel pos inp ed = some (p, rest, ed1)) :
    StoreInv ed1 := by
  induction fuel generalizing pos inp ed with
  | zero => simp [cmd_insert_loop] at hrun
  | succ fuel ih =>
    rw [cmd_insert_loop] at hrun
    cases hg : fgets LINE_LEN inp with
    | none =>
      rw [hg] at hrun
      simp only [Option.some.injEq, Prod.mk.injEq] at hrun
      rw [← hrun.2.2]; exact h
    | some q =>
      obtain ⟨raw, rest1⟩ := q
      rw [hg] at hrun
      simp only at hrun
      by_cases hdot : chomp (cstr raw) = ['.']
      · rw [if_pos hdot] at hrun
        simp only [Option.some.injEq, Prod.mk.injEq] at hrun
        rw [← hrun.2.2]; exact h
      · rw [if_neg hdot] at hrun
        by_cases hfull : ed.line_count + 1 > MAX_LINES
        · rw [make_room_full pos ed hfull] at hrun
          simp only [if_true, Option.some.injEq, Prod.mk.injEq] at hrun
          rw [← hrun.2.2]; exact h
        · obtain ⟨hr1, hc, -, -, -, -⟩ := make_room_one pos ed (by omega)
          rw [if_neg (by rw [hr1]; decide)] at hrun
          have hstep := insert_step_content pos (chomp (cstr raw)) ed h0 h1 (by omega)
          refine ih (pos + 1) rest1 _ ?_ (by omega) (by show pos + 1 ≤ (make_room pos 1 ed).2.line_count; omega) hrun
          rw [storeInv_iff] at h ⊢
          obtain ⟨i0, i1, i2⟩ := h
          refine ⟨by show 0 ≤ (make_room pos 1 ed).2.line_count; omega,
            by show (make_room pos 1 ed).2.line_count ≤ MAX_LINES; omega, fun l hl => ?_⟩
          rw [hstep, List.mem_append, List.mem_cons] at hl
          rcases hl with hl | hl | hl
          · exact i2 l (List.mem_of_mem_take hl)
          · cases hl
            exact fgets_cstr_chomp_length inp raw rest1 hg
          · exact i2 l (List.mem_of_mem_drop hl)

theorem storeInv_congr (ed ed1 : Ed) (hl : ed1.lines = ed.lines) (hc : ed1.line_count = ed.line_count)
    (h : StoreInv ed) : StoreInv ed1 := by
  unfold StoreInv at h ⊢
  rw [hl, hc]
  exact h

theorem cmd_insert_inv (n : Int) (inp : List Char) (ed ed1 : Ed) (rest : List Char)
    (h : StoreInv ed) (hrun : cmd_insert n inp ed = some (ed1, rest)) : StoreInv ed1 := by
  unfold cmd_insert at hrun
  simp only at hrun
  cases hl : cmd_insert_loop (inp.length + 1)
      ((if n < 1 ∨ n > ed.line_count + 1 then ed.line_count + 1 else n) - 1) inp ed with
  | none => rw [hl] at hrun; cases hrun
  | some q =>
    obtain ⟨p, rest1, ed2⟩ := q
    rw [hl] at hrun
    simp only [Option.some.injEq, Prod.mk.injEq] at hrun
    have h2 : StoreInv ed2 := by
      refine cmd_insert_loop_inv _ _ inp ed p rest1 ed2 h ?_ ?_ hl
      · have := h.1; split_ifs <;> omega
      · have := h.1; split_ifs <;> omega
    rw [← hrun.1]
    exact storeInv_congr ed2 _ rfl rfl h2

theorem cmd_edit_inv (n : Int) (inp : List Char) (ed : Ed) (h : StoreInv ed) :
    StoreInv (cmd_edit n inp ed).1 := by
  unfold cmd_edit
  split_ifs with hn
  · exact h
  · cases hg : fgets LINE_LEN inp with
    | none => exact h
    | some q =>
      obtain ⟨raw, rest⟩ := q
      simp only
      obtain ⟨i0, i1, i2⟩ := h
      have hc := free_line_line_count (n - 1) ed
      refine ⟨by show 0 ≤ (free_line (n - 1) ed).line_count; omega,
        by show (free_line (n - 1) ed).line_count ≤ MAX_LINES; omega, fun i l hi0 hi1 hi => ?_⟩
      change i < (free_line (n - 1) ed).line_count at hi1
      change setSlot (free_line (n - 1) ed).lines (n - 1) (some (chomp (cstr raw))) i = some l at hi
      rw [setSlot_apply] at hi
      split_ifs at hi with hin
      · cases hi
        exact fgets_cstr_chomp_length inp raw rest hg
      · rw [free_line_lines, if_neg (fun hh => hin hh.1)] at hi
        exact i2 i l hi0 (by omega) hi

/-- The line left by the replace loop is the given one or passed the length
test. -/
theorem replace_loop_length (oldp newp : Line) (global : Bool) (fuel : Nat) (s : Line)
    (made limit : Int) (r : Line × Int × LoopExit)
    (h : replace_loop oldp newp global fuel s made limit = some r) :
    r.1 = s ∨ r.1.length + 1 < LINE_LEN := by
  induction fuel generalizing s made limit with
  | zero => simp [replace_loop] at h
  | succ fuel ih =>
    cases hs : strstr s oldp with
    | none =>
      rw [replace_loop_none _ _ _ _ _ _ _ hs] at h
      cases h
      exact Or.inl rfl
    | some i =>
      by_cases hfit : (s.take i ++ newp ++ s.drop (i + oldp.length)).length + 1 < LINE_LEN
      · rw [replace_loop_step oldp newp global fuel s made limit i hs hfit] at h
        split_ifs at h
        · cases h; exact Or.inr hfit
        · cases h; exact Or.inr hfit
        · rcases ih _ _ _ h with h1 | h1
          · rw [h1]; exact Or.inr hfit
          · exact Or.inr h1
      · rw [replace_loop_long oldp newp global fuel s made limit i hs (by omega)] at h
        cases h
        exact Or.inl rfl

theorem replace_in_line_length (s oldp newp : Line) (global : Bool) (r : Line × Int)
    (h : replace_in_line s oldp newp global = some r) (hs : s.length ≤ 255) : r.1.length ≤ 255 := by
  unfold replace_in_line at h
  split_ifs at h
  · cases h; exact hs
  · cases hl : replace_loop oldp newp global 1024 s 0 1024 with
    | none => rw [hl] at h; cases h
    | some q =>
      rw [hl] at h
      cases h
      rcases replace_loop_length _ _ _ _ _ _ _ q hl with h1 | h1
      · show q.1.length ≤ 255
        rw [h1]; exact hs
      · show q.1.length ≤ 255
        unfold LINE_LEN at h1
        omega

/-- `replace_in_line` returns for every line and both modes. -/
theorem replace_in_line_isSome (s oldp newp : Line) (global : Bool) :
    (replace_in_line s oldp newp global).isSome = true := by
  unfold replace_in_line
  split_ifs
  · rfl
  · obtain ⟨r, hr, -⟩ := replace_loop_total oldp newp global 1024 s 0 1024 (by decide) (by decide)
    rw [hr]
    rfl

theorem cmd_replace_inv (a b : Int) (spec : Line) (ed : Ed) (h : StoreInv ed) :
    StoreInv (cmd_replace a b spec ed).2 := by
  unfold cmd_replace
  cases parse_between (spec.dropWhile isspace) '/' LINE_LEN with
  | none => exact h
  | some r1 =>
    obtain ⟨oldp, p1⟩ := r1
    simp only
    cases parse_between (p1.dropWhile isspace) '/' LINE_LEN with
    | none => exact h
    | some r2 =>
      obtain ⟨newp, p2⟩ := r2
      simp only
      obtain ⟨i0, i1, i2⟩ := h
      refine ⟨i0, i1, ?_⟩
      show ∀ (i : Int) (l : Line), 0 ≤ i → i < ed.line_count →
        (forUp (replace_body ed oldp newp _) _ _ (ed.lines, 0)).1 i = some l → l.length ≤ 255
      unfold forUp
      refine forUpN_invariant
        (fun st : Lines × Int => ∀ (i : Int) (l : Line), 0 ≤ i → i < ed.line_count →
          st.1 i = some l → l.length ≤ 255) _ ?_ _ _ _ i2
      intro j st hst
      unfold replace_body
      split_ifs with hj
      · cases hsl : st.1 (j - 1) with
        | none => exact hst
        | some s =>
          simp only
          cases hrep : replace_in_line s oldp newp _ with
          | none => exact hst
          | some r =>
            simp only
            intro i l hi0 hi1 hi
            rw [setSlot_apply] at hi
            split_ifs at hi with hij
            · cases hi
              exact replace_in_line_length s oldp newp _ r hrep
                (hst (j - 1) s (by omega) (by omega) hsl)
            · exact hst i l hi0 hi1 hi
      · exact hst

theorem load_loop_inv (fuel : Nat) (inp : List Char) (ed : Ed) (r : Int) (ed1 : Ed)
    (h : StoreInv ed) (hlt : ed.line_count < MAX_LINES)
    (hrun : load_loop fuel inp ed = some (r, ed1)) : StoreInv ed1 := by
  induction fuel generalizing inp ed with
  | zero => simp [load_loop] at hrun
  | succ fuel ih =>
    rw [load_loop] at hrun
    cases hg : fgets LINE_LEN inp with
    | none =>
      rw [hg] at hrun
      simp only [Option.some.injEq, Prod.mk.injEq] at hrun
      rw [← hrun.2]; exact h
    | some q =>
      obtain ⟨raw, rest⟩ := q
      rw [hg] at hrun
      simp only at hrun
      have hnext : StoreInv { ed with lines := setSlot ed.lines ed.line_count (some (chomp raw))
                                      line_count := ed.line_count + 1 } := by
        have hstep := append_slot_content ed (chomp raw) h.1
        rw [storeInv_iff] at h ⊢
        obtain ⟨i0, i1, i2⟩ := h
        refine ⟨by show 0 ≤ ed.line_count + 1; omega,
          by show ed.line_count + 1 ≤ MAX_LINES; omega, fun l hl => ?_⟩
        rw [hstep, List.mem_append, List.mem_singleton] at hl
        rcases hl with hl | hl
        · exact i2 l hl
        · cases hl
          exact fgets_chomp_length inp raw rest hg
      split_ifs at hrun with hfull
      · simp only [Option.some.injEq, Prod.mk.injEq] at hrun
        rw [← hrun.2]; exact hnext
      · change ¬ (ed.line_count + 1 ≥ MAX_LINES) at hfull
        exact ih rest _ hnext (by show ed.line_count + 1 < MAX_LINES; omega) hrun

theorem load_file_inv (name : Line) (file : Option (List Char)) (ed : Ed) (r : Int) (ed1 : Ed)
    (h : StoreInv ed) (hrun : load_file name file ed = some (r, ed1)) : StoreInv ed1 := by
  unfold load_file at hrun
  cases file with
  | none =>
    simp only [Option.some.injEq, Prod.mk.injEq] at hrun
    rw [← hrun.2]; exact h
  | some text =>
    simp only at hrun
    cases hl : load_loop (text.length + 1) text
        { forUp free_line 0 ed.line_count ed with line_count := 0 } with
    | none => rw [hl] at hrun; cases hrun
    | some q =>
      obtain ⟨r1, ed2⟩ := q
      rw [hl] at hrun
      simp only at hrun
      have h2 : StoreInv ed2 := by
        refine load_loop_inv _ text _ r1 ed2 ?_ (by show (0 : Int) < MAX_LINES; decide) hl
        exact ⟨le_refl 0, by show (0 : Int) ≤ MAX_LINES; decide, fun i l hi0 hi1 _ => by
          change i < 0 at hi1; omega⟩
      split_ifs at hrun
      · simp only [Option.some.injEq, Prod.mk.injEq] at hrun
        rw [← hrun.2]; exact h2
      · simp only [Option.some.injEq, Prod.mk.injEq] at hrun
        rw [← hrun.2]
        exact storeInv_congr ed2 _ rfl rfl h2

theorem load_loop_total (fuel : Nat) (inp : List Char) (ed : Ed) (hf : inp.length < fuel) :
    (load_loop fuel inp ed).isSome = true := by
  induction fuel generalizing inp ed with
  | zero => omega
  | succ fuel ih =>
    rw [load_loop]
    cases hg : fgets LINE_LEN inp with
    | none => rfl
    | some q =>
      obtain ⟨raw, rest⟩ := q
      have hlt := fgets_shorter inp raw rest hg
      simp only
      split_ifs
      · rfl
      · exact ih _ _ (by omega)

/-- `load_file` returns for every file. -/
theorem load_file_total (name : Line) (file : Option (List Char)) (ed : Ed) :
    (load_file name file ed).isSome = true := by
  unfold load_file
  cases file with
  | none => rfl
  | some text =>
    simp only
    have h := load_loop_total (text.length + 1) text
      { forUp free_line 0 ed.line_count ed with line_count := 0 } (by omega)
    cases hl : load_loop (text.length + 1) text
        { forUp free_line 0 ed.line_count ed with line_count := 0 } with
    | none => rw [hl] at h; exact absurd h (by simp)
    | some q =>
      simp only
      split_ifs <;> rfl

/-- C17.  In every state reachable from the empty store by loading,
inserting, deleting, editing and replacing, the line count is within
`[0, 1200]` and every line stored below the count has at most 255
characters. -/
theorem reachable_store_invariant (ed : Ed) (h : Reachable ed) :
    0 ≤ ed.line_count ∧ ed.line_count ≤ 1200 ∧
    ∀ (i : Int) (l : Line), 0 ≤ i → i < ed.line_count → ed.lines i = some l → l.length ≤ 255 := by
  have key : StoreInv ed := by
    induction h with
    | empty =>
      exact ⟨le_refl 0, by decide, fun i l hi0 hi1 _ => by change i < 0 at hi1; omega⟩
    | load ed name file r ed1 _ hrun ih => exact load_file_inv name file ed r ed1 ih hrun
    | insert ed n inp ed1 rest _ hrun ih => exact cmd_insert_inv n inp ed ed1 rest ih hrun
    | delete ed a b _ ih => exact cmd_delete_inv a b ed ih
    | edit ed n inp _ ih => exact cmd_edit_inv n inp ed ih
    | replace ed a b spec _ ih => exact cmd_replace_inv a b spec ed ih
  exact key

/-- C17 on the state after typing x into the empty store. -/
theorem reachable_store_invariant_witness :
    (cmd_insert 1 ['x', '\n', '.', '\n'] (mkStore [])).map
        (fun r => (decide (0 ≤ r.1.line_count), decide (r.1.line_count ≤ 1200))) =
      some (true, true) := by
  cases h : cmd_insert 1 ['x', '\n', '.', '\n'] (mkStore []) with
  | none =>
    have := cmd_insert_total 1 ['x', '\n', '.', '\n'] (mkStore [])
    rw [h] at this
    exact absurd this (by simp)
  | some r =>
    obtain ⟨a, b, -⟩ := reachable_store_invariant r.1
      (Reachable.insert (mkStore []) 1 ['x', '\n', '.', '\n'] r.1 r.2 Reachable.empty h)
    simp [a, b]

end LinEd
